import Mathlib

/-!
Verification development for the `nlpo_toolkit` repository.

The Python sources are shallowly embedded:
  * Python `str` values are modelled as `List Char` (a Python string is a
    sequence of code points);
  * `collections.Counter` values are modelled as the ordered list of keys
    that were incremented, abstracted to a `Multiset` via `toCounter`
    (`Counter` equality is exactly multiset equality, since the code only
    ever increments by 1);
  * regular-expression objects attached to cleaning rules are modelled as
    opaque collaborator functions (`matches'`, `count`, `subst`), exactly as
    the cleaning code treats them;
  * file I/O is modelled by explicit before/after file contents.

Sources embedded here: `nlpo_toolkit/nlp.py` and
`nlpo_toolkit/latin/cleaners/cleaners.py`.
-/

namespace NlpoToolkit

/-- Python `str.isspace` for the ASCII whitespace that the toolkit
manipulates (`str.strip()` with no argument strips these). -/
def isSpaceChar (c : Char) : Bool :=
  c = ' ' || c = '\t' || c = '\n' || c = '\r' || c = '\x0b' || c = '\x0c'

/-- Python `str.lstrip()`. -/
def lstripChars (l : List Char) : List Char :=
  l.dropWhile isSpaceChar

/-- Python `str.rstrip()`. -/
def rstripChars (l : List Char) : List Char :=
  (l.reverse.dropWhile isSpaceChar).reverse

/-- Python `str.strip()`: drop leading and trailing whitespace. -/
def stripChars (l : List Char) : List Char :=
  lstripChars (rstripChars l)

/-- Python `str.lower()`, modelled characterwise. -/
def lowerChars (l : List Char) : List Char :=
  l.map Char.toLower

/-- Python `line.rstrip("\n")`: drop trailing newline characters. -/
def rstripNl (l : List Char) : List Char :=
  (l.reverse.dropWhile (fun c => c = '\n')).reverse

/-- Python `line.replace("\t", " ")`. -/
def replaceTabs (l : List Char) : List Char :=
  l.map (fun c => if c = '\t' then ' ' else c)

theorem stripChars_eq_nil_iff {l : List Char} :
    stripChars l = [] ↔ ∀ c ∈ l, isSpaceChar c := by
  unfold stripChars rstripChars lstripChars
  rw [List.dropWhile_eq_nil_iff]
  constructor
  · intro h c hc
    have hc' : c ∈ l.reverse := List.mem_reverse.mpr hc
    by_cases hmem : c ∈ l.reverse.dropWhile isSpaceChar
    · exact h c (by simpa using hmem)
    · have hsplit :=
        List.takeWhile_append_dropWhile (p := isSpaceChar) (l := l.reverse)
      have hc'' : c ∈ l.reverse.takeWhile isSpaceChar
          ++ l.reverse.dropWhile isSpaceChar := by
        rw [hsplit]; exact hc'
      rcases List.mem_append.mp hc'' with h3 | h3
      · exact List.mem_takeWhile_imp h3
      · exact absurd h3 hmem
  · intro hall c hc
    have h1 : c ∈ l.reverse.dropWhile isSpaceChar := by simpa using hc
    have h2 : c ∈ l.reverse := (List.dropWhile_sublist _).subset h1
    exact hall c (List.mem_reverse.mp h2)

theorem dropWhile_absorb {p q : Char → Bool}
    (himp : ∀ c, q c = true → p c = true) :
    ∀ l : List Char, (l.dropWhile q).dropWhile p = l.dropWhile p := by
  intro l
  induction l with
  | nil => rfl
  | cons c t ih =>
    by_cases hq : q c
    · rw [List.dropWhile_cons, if_pos hq, ih, List.dropWhile_cons,
        if_pos (himp c hq)]
    · rw [List.dropWhile_cons, if_neg hq]

/-- `line.rstrip("\n").strip()` equals `line.strip()`: the trailing
newlines removed by `rstrip` are whitespace anyway. -/
theorem stripChars_rstripNl (l : List Char) :
    stripChars (rstripNl l) = stripChars l := by
  unfold stripChars rstripChars rstripNl lstripChars
  rw [List.reverse_reverse,
    dropWhile_absorb (p := isSpaceChar) (q := fun c => c = '\n')
      (by
        intro c hc
        have h : c = '\n' := by simpa using hc
        subst h
        decide)
      l.reverse]

/-! ## Chunker (`iter_char_chunks`, nlp.py lines 293–311) -/

/-- Python `text.rfind(c, start, stop)` restricted to single characters:
highest index `p` with `start ≤ p < stop` and `text[p] = c`, else `none`
(Python returns `-1`). -/
def rfindIdx (text : List Char) (c : Char) (start : Nat) : Nat → Option Nat
  | 0 => none
  | stop + 1 =>
    if start ≤ stop ∧ text.get? stop = some c then some stop
    else rfindIdx text c start stop

/-- One pass of the `while i < N` loop of `iter_char_chunks`: compute the
end index `j` of the chunk that starts at `i`. -/
def chunkEnd (text : List Char) (chunkChars i : Nat) : Nat :=
  if min text.length (i + chunkChars) < text.length then
    match rfindIdx text ' ' (i + 1) (min text.length (i + chunkChars)) with
    | some k => k + 1
    | none =>
      match rfindIdx text '\n' (i + 1) (min text.length (i + chunkChars)) with
      | some k => k + 1
      | none => min text.length (i + chunkChars)
  else min text.length (i + chunkChars)

/-- The chunking loop with explicit fuel (the Python loop runs until
`i = len(text)`; with `chunk_chars ≥ 1` the index strictly increases, so
`len(text)` steps always suffice — see `chunksGo_fuel_stable`). -/
def chunksGo (text : List Char) (chunkChars : Nat) : Nat → Nat → List (List Char)
  | _, 0 => []
  | i, fuel + 1 =>
    if i < text.length then
      ((text.drop i).take (chunkEnd text chunkChars i - i)) ::
        chunksGo text chunkChars (chunkEnd text chunkChars i) fuel
    else []

/-- `iter_char_chunks(text, chunk_chars)` (nlp.py lines 293–311), as the
list of yielded chunks. -/
def iter_char_chunks (text : List Char) (chunkChars : Nat) : List (List Char) :=
  chunksGo text chunkChars 0 text.length

theorem rfindIdx_bounds {text : List Char} {c : Char} {start k : Nat} :
    ∀ {stop : Nat}, rfindIdx text c start stop = some k → start ≤ k ∧ k < stop := by
  intro stop
  induction stop with
  | zero => intro h; simp [rfindIdx] at h
  | succ stop ih =>
    intro h
    rw [rfindIdx] at h
    by_cases hcond : start ≤ stop ∧ text.get? stop = some c
    · rw [if_pos hcond] at h
      cases h
      exact ⟨hcond.1, Nat.lt_succ_self _⟩
    · rw [if_neg hcond] at h
      rcases ih h with ⟨h1, h2⟩
      exact ⟨h1, Nat.lt_succ_of_lt h2⟩

theorem rfindIdx_found {text : List Char} {c : Char} {start k : Nat} :
    ∀ {stop : Nat}, rfindIdx text c start stop = some k → text.get? k = some c := by
  intro stop
  induction stop with
  | zero => intro h; simp [rfindIdx] at h
  | succ stop ih =>
    intro h
    rw [rfindIdx] at h
    by_cases hcond : start ≤ stop ∧ text.get? stop = some c
    · rw [if_pos hcond] at h
      cases h
      exact hcond.2
    · rw [if_neg hcond] at h
      exact ih h

theorem rfindIdx_none_of_not_mem {text : List Char} {c : Char} {start : Nat}
    (h : c ∉ text) : ∀ stop, rfindIdx text c start stop = none := by
  intro stop
  induction stop with
  | zero => rfl
  | succ stop ih =>
    rw [rfindIdx]
    have : ¬ (start ≤ stop ∧ text.get? stop = some c) := by
      rintro ⟨-, hget⟩
      exact h (List.get?_mem hget)
    rw [if_neg this]
    exact ih

theorem chunkEnd_lb {text : List Char} {chunkChars i : Nat}
    (hc : 1 ≤ chunkChars) (hi : i < text.length) :
    i + 1 ≤ chunkEnd text chunkChars i := by
  unfold chunkEnd
  by_cases hj : min text.length (i + chunkChars) < text.length
  · rw [if_pos hj]
    cases hsp : rfindIdx text ' ' (i + 1) (min text.length (i + chunkChars)) with
    | some k =>
      have := (rfindIdx_bounds hsp).1
      simp only
      omega
    | none =>
      cases hnl : rfindIdx text '\n' (i + 1) (min text.length (i + chunkChars)) with
      | some k =>
        have := (rfindIdx_bounds hnl).1
        simp only
        omega
      | none =>
        simp only
        omega
  · rw [if_neg hj]
    omega

theorem chunkEnd_ub {text : List Char} {chunkChars i : Nat} :
    chunkEnd text chunkChars i ≤ text.length ∧
      chunkEnd text chunkChars i ≤ i + chunkChars := by
  unfold chunkEnd
  by_cases hj : min text.length (i + chunkChars) < text.length
  · rw [if_pos hj]
    cases hsp : rfindIdx text ' ' (i + 1) (min text.length (i + chunkChars)) with
    | some k =>
      have := (rfindIdx_bounds hsp).2
      simp only
      omega
    | none =>
      cases hnl : rfindIdx text '\n' (i + 1) (min text.length (i + chunkChars)) with
      | some k =>
        have := (rfindIdx_bounds hnl).2
        simp only
        omega
      | none =>
        simp only
        omega
  · rw [if_neg hj]
    omega

theorem chunksGo_flatten {text : List Char} {chunkChars : Nat}
    (hc : 1 ≤ chunkChars) :
    ∀ fuel i, text.length - i ≤ fuel →
      (chunksGo text chunkChars i fuel).flatten = text.drop i := by
  intro fuel
  induction fuel with
  | zero =>
    intro i hfi
    have : text.length ≤ i := by omega
    simp [chunksGo, List.drop_eq_nil_of_le this]
  | succ fuel ih =>
    intro i hfi
    by_cases hi : i < text.length
    · have hlb := @chunkEnd_lb text chunkChars i hc hi
      have hub := (@chunkEnd_ub text chunkChars i).1
      have hrec : (chunksGo text chunkChars (chunkEnd text chunkChars i) fuel).flatten
          = text.drop (chunkEnd text chunkChars i) :=
        ih (chunkEnd text chunkChars i) (by omega)
      simp only [chunksGo, hi, if_true, List.flatten_cons, hrec]
      have hdd : text.drop (chunkEnd text chunkChars i)
          = (text.drop i).drop (chunkEnd text chunkChars i - i) := by
        rw [List.drop_drop]
        congr 1
        omega
      rw [hdd, List.take_append_drop]
    · simp [chunksGo, hi, List.drop_eq_nil_of_le (by omega : text.length ≤ i)]

/-- Helper: chunks are nonempty and bounded by the chunk size. -/
theorem chunksGo_mem_shape {text : List Char} {chunkChars : Nat}
    (hc : 1 ≤ chunkChars) :
    ∀ fuel i ch, ch ∈ chunksGo text chunkChars i fuel →
      ch ≠ [] ∧ ch.length ≤ chunkChars := by
  intro fuel
  induction fuel with
  | zero => intro i ch h; simp [chunksGo] at h
  | succ fuel ih =>
    intro i ch h
    by_cases hi : i < text.length
    · simp only [chunksGo, hi, if_true, List.mem_cons] at h
      rcases h with h | h
      · subst h
        have hlb := @chunkEnd_lb text chunkChars i hc hi
        have hub := @chunkEnd_ub text chunkChars i
        constructor
        · intro hnil
          have := congrArg List.length hnil
          simp only [List.length_take, List.length_drop, List.length_nil] at this
          omega
        · simp only [List.length_take, List.length_drop]
          omega
      · exact ih _ _ h
    · simp [chunksGo, hi] at h

/-- Helper: the loop is fuel-stable once the fuel covers the remaining
length — this is the termination statement for the Python `while` loop. -/
theorem chunksGo_fuel_stable {text : List Char} {chunkChars : Nat}
    (hc : 1 ≤ chunkChars) :
    ∀ f₁ f₂ i, text.length - i ≤ f₁ → text.length - i ≤ f₂ →
      chunksGo text chunkChars i f₁ = chunksGo text chunkChars i f₂ := by
  intro f₁
  induction f₁ with
  | zero =>
    intro f₂ i h1 h2
    have hi : ¬ i < text.length := by omega
    cases f₂ with
    | zero => rfl
    | succ f₂ => simp [chunksGo, hi]
  | succ f₁ ih =>
    intro f₂ i h1 h2
    by_cases hi : i < text.length
    · cases f₂ with
      | zero => omega
      | succ f₂ =>
        have hlb := @chunkEnd_lb text chunkChars i hc hi
        simp only [chunksGo, hi, if_true]
        rw [ih f₂ (chunkEnd text chunkChars i) (by omega) (by omega)]
    · cases f₂ with
      | zero => simp [chunksGo, hi]
      | succ f₂ => simp [chunksGo, hi]

/-- Plain fixed-size chunking (`text[0:c], text[c:2c], …`): the shape the
spec says the Chunker is forced into when no whitespace exists in any
window. Stated from the spec for comparison with `iter_char_chunks`. -/
def plainChunksGo (c : Nat) : Nat → List Char → List (List Char)
  | 0, _ => []
  | fuel + 1, l => if l = [] then [] else l.take c :: plainChunksGo c fuel (l.drop c)

/-- Plain fixed-size chunking of a whole text. -/
def plainChunks (c : Nat) (l : List Char) : List (List Char) :=
  plainChunksGo c l.length l

theorem chunkEnd_no_ws {text : List Char} {chunkChars i : Nat}
    (hsp : ' ' ∉ text) (hnl : '\n' ∉ text) :
    chunkEnd text chunkChars i = min text.length (i + chunkChars) := by
  unfold chunkEnd
  by_cases hj : min text.length (i + chunkChars) < text.length
  · rw [if_pos hj, rfindIdx_none_of_not_mem hsp, rfindIdx_none_of_not_mem hnl]
  · rw [if_neg hj]

theorem chunksGo_no_ws {text : List Char} {chunkChars : Nat}
    (hsp : ' ' ∉ text) (hnl : '\n' ∉ text) :
    ∀ fuel i, chunksGo text chunkChars i fuel
      = plainChunksGo chunkChars fuel (text.drop i) := by
  intro fuel
  induction fuel with
  | zero => intro i; rfl
  | succ fuel ih =>
    intro i
    by_cases hi : i < text.length
    · have hne : text.drop i ≠ [] := by
        intro h
        have := congrArg List.length h
        simp only [List.length_drop, List.length_nil] at this
        omega
      have h1 : (text.drop i).take (min text.length (i + chunkChars) - i)
          = (text.drop i).take chunkChars := by
        rcases Nat.le_total (i + chunkChars) text.length with hle | hle
        · rw [min_eq_right hle]
          congr 1
          omega
        · rw [min_eq_left hle]
          rw [List.take_of_length_le, List.take_of_length_le]
          · simp only [List.length_drop]; omega
          · simp only [List.length_drop]; omega
      have h2 : text.drop (min text.length (i + chunkChars))
          = (text.drop i).drop chunkChars := by
        rw [List.drop_drop]
        rcases Nat.le_total (i + chunkChars) text.length with hle | hle
        · rw [min_eq_right hle]
        · rw [min_eq_left hle]
          rw [List.drop_eq_nil_of_le (le_refl text.length),
            List.drop_eq_nil_of_le (by omega : text.length ≤ i + chunkChars)]
      rw [chunksGo, plainChunksGo,
        if_pos hi, if_neg hne, chunkEnd_no_ws hsp hnl, h1,
        ih (min text.length (i + chunkChars)), h2]
    · have hnil : text.drop i = [] :=
        List.drop_eq_nil_of_le (by omega)
      rw [chunksGo, plainChunksGo]
      simp [hi, hnil]

/-! ## Annotator document model (duck-typed stanza objects)

The aggregator consumes the annotator's result purely through `getattr`
with defaults (nlp.py `_iter_sentence_words`,
`_iter_sentence_words_with_offsets`, `count_nouns_doc`,
`_count_nouns_streaming_trace`).  A word-like object exposes optional
`upos`, `lemma`, `text`, `start_char`; a token additionally exposes a
`words` list; a sentence exposes `text` (default `""`), `tokens` and
`words` (Python `None` and `[]` are collapsed to `[]`, which the code
treats identically via `or []` / falsiness). -/

structure PyWord where
  upos : Option (List Char)
  lemma' : Option (List Char)
  text : Option (List Char)
  start_char : Option Nat
deriving DecidableEq, Repr

structure PyToken where
  upos : Option (List Char)
  lemma' : Option (List Char)
  text : Option (List Char)
  start_char : Option Nat
  words : List PyWord
deriving DecidableEq, Repr

structure PySentence where
  text : List Char
  tokens : List PyToken
  words : List PyWord
deriving DecidableEq, Repr

structure PyDoc where
  sentences : List PySentence
deriving DecidableEq, Repr

/-- A token yielded in place of a word (`yield tok` fallback): attribute
reads on it see the token's own optional fields. -/
def tokenAsWord (t : PyToken) : PyWord :=
  ⟨t.upos, t.lemma', t.text, t.start_char⟩

/-- Python truthiness of an optional string: `None` and `""` are falsy. -/
def truthyStr : Option (List Char) → Bool
  | some (_ :: _) => true
  | _ => false

/-- `_iter_sentence_words` (nlp.py lines 122–136): prefer `sent.words`;
otherwise walk `sent.tokens`, yielding `token.words` or the token itself. -/
def _iter_sentence_words (s : PySentence) : List PyWord :=
  if s.words ≠ [] then s.words
  else s.tokens.flatMap (fun t => if t.words ≠ [] then t.words else [tokenAsWord t])

/-- `_iter_sentence_words_with_offsets` (nlp.py lines 138–163): walk
`sent.tokens` pairing each word with the token's `start_char`; afterwards,
if `sent.words` is non-empty, additionally yield those words with their own
`start_char`. -/
def _iter_sentence_words_with_offsets (s : PySentence) : List (PyWord × Option Nat) :=
  (s.tokens.flatMap fun t =>
    if t.words ≠ [] then t.words.map (fun w => (w, t.start_char))
    else [(tokenAsWord t, t.start_char)])
  ++ (if s.words ≠ [] then s.words.map (fun w => (w, w.start_char)) else [])

/-- The per-word body of `count_nouns_doc` (nlp.py lines 175–198): `some
key` when the word's key is incremented in the noun counter, `none` when
the word is skipped (wrong tag, falsy token, empty key) or diverted to the
reference-tag counter by a detector returning a non-empty label. -/
def nounKeyOf (useLemma : Bool) (targets : List (List Char))
    (det : Option (List Char → List Char)) (w : PyWord) : Option (List Char) :=
  match w.upos with
  | none => none
  | some u =>
    if u ∈ targets then
      match (if useLemma && truthyStr w.lemma' then w.lemma' else w.text) with
      | none => none
      | some tok =>
        if tok = [] then none
        else
          let key := lowerChars (stripChars tok)
          if key = [] then none
          else
            match det with
            | some d => if d key ≠ [] then none else some key
            | none => some key
    else none

/-- `count_nouns_doc` (nlp.py lines 165–200), as the ordered list of keys
incremented in the returned `Counter`.  (Reference-tag hits go to the
separate `ref_tag_counter` and never reach this counter.) -/
def count_nouns_doc (useLemma : Bool) (targets : List (List Char))
    (det : Option (List Char → List Char)) (doc : PyDoc) : List (List Char) :=
  doc.sentences.flatMap (fun s => (_iter_sentence_words s).filterMap (nounKeyOf useLemma targets det))

/-- `count_nouns` (nlp.py lines 203–221): empty or whitespace-only text
short-circuits to an empty counter without calling the annotator. -/
def count_nouns (annotate : List Char → PyDoc) (useLemma : Bool)
    (targets : List (List Char)) (det : Option (List Char → List Char))
    (text : List Char) : List (List Char) :=
  if text = [] ∨ stripChars text = [] then []
  else count_nouns_doc useLemma targets det (annotate text)

/-- `_count_nouns_streaming_fast` (nlp.py lines 314–346): per-chunk
`count_nouns`, accumulated with `Counter.update` (= concatenation of the
key streams). -/
def _count_nouns_streaming_fast (annotate : List Char → PyDoc) (useLemma : Bool)
    (targets : List (List Char)) (det : Option (List Char → List Char))
    (chunkChars : Nat) (text : List Char) : List (List Char) :=
  if text = [] then []
  else ((iter_char_chunks text chunkChars).map
    (count_nouns annotate useLemma targets det)).flatten

/-- `count_nouns_streaming` (nlp.py lines 480–524) with `trace_tsv = None`:
the public API dispatches to the fast path.  (The `trace_tsv given` branch
is modelled separately by `count_nouns_streaming_trace` below.) -/
def count_nouns_streaming (annotate : List Char → PyDoc) (useLemma : Bool)
    (targets : List (List Char)) (det : Option (List Char → List Char))
    (chunkChars : Nat) (text : List Char) : List (List Char) :=
  _count_nouns_streaming_fast annotate useLemma targets det chunkChars text

/-- A Python `Counter` as the multiset of its incremented keys. -/
def toCounter (l : List (List Char)) : Multiset (List Char) :=
  (l : Multiset (List Char))

/-! ## Trace path (`_count_nouns_streaming_trace`, nlp.py lines 348–478) -/

/-- One TSV row written by the trace path (the twelve fixed columns).
`none` in an offset column is written as the empty cell. -/
structure TraceRow where
  label : List Char
  chunk : Nat
  sent_idx : Nat
  token_idx : Nat
  token_char_start_in_chunk : Option Nat
  token_char_start_in_text : Option Nat
  sentence : List Char
  token : List Char
  lemma' : List Char
  upos : List Char
  ref_tag : List Char
  global_row : Nat
deriving DecidableEq, Repr, Inhabited

/-- The mutable locals of `_count_nouns_streaming_trace`, plus the rows
written so far (`rows` stands for the TSV writer's output). -/
structure TraceState where
  total : List (List Char)
  refTotal : List (List Char)
  rows : List TraceRow
  rows_written : Nat
  trace_enabled : Bool
  global_row : Nat
deriving DecidableEq, Repr

def initTraceState : TraceState :=
  { total := [], refTotal := [], rows := [], rows_written := 0,
    trace_enabled := true, global_row := 0 }

/-- `enumerate(xs, n)`. -/
def enumFrom {α : Type} (n : Nat) : List α → List (Nat × α)
  | [] => []
  | x :: xs => (n, x) :: enumFrom (n + 1) xs

/-- The key the trace path counts: `(key or "").strip().lower()`. -/
def traceKeyOf (useLemma : Bool) (w : PyWord) : List Char :=
  lowerChars (stripChars
    ((if useLemma && truthyStr w.lemma' then w.lemma' else w.text).getD []))

/-- The body of the innermost token loop of `_count_nouns_streaming_trace`
(nlp.py lines 420–470): count (or divert to the reference-tag counter),
then, while tracing is enabled, write one row and possibly trip the row
cap. -/
def traceTokenStep (useLemma : Bool) (targets : List (List Char))
    (det : Option (List Char → List Char)) (maxRows : Nat) (label : List Char)
    (chunkIdx chunkBase sentIdx : Nat) (sentText : List Char)
    (st : TraceState) (tokIdx : Nat) (wo : PyWord × Option Nat) : TraceState :=
  match wo.1.upos with
  | none => st
  | some u =>
    if u ∈ targets then
      let key := traceKeyOf useLemma wo.1
      let tag : List Char :=
        match det with
        | some d => if key ≠ [] then d key else []
        | none => []
      let st1 :=
        if key ≠ [] then
          if tag ≠ [] then { st with refTotal := st.refTotal ++ [tag] }
          else { st with total := st.total ++ [key] }
        else st
      if st.trace_enabled then
        { st1 with
          rows := st.rows ++ [{
            label := label, chunk := chunkIdx, sent_idx := sentIdx,
            token_idx := tokIdx,
            token_char_start_in_chunk := wo.2,
            token_char_start_in_text := wo.2.map (fun o => chunkBase + o),
            sentence := sentText,
            token := wo.1.text.getD [],
            lemma' := wo.1.lemma'.getD [],
            upos := u, ref_tag := tag,
            global_row := st.global_row + 1 }],
          rows_written := st.rows_written + 1,
          global_row := st.global_row + 1,
          trace_enabled :=
            if maxRows ≠ 0 ∧ st.rows_written + 1 ≥ maxRows then false else true }
      else st1
    else st

/-- The per-sentence loop body (nlp.py lines 417–470): `sent_text` is read
once per sentence, only while tracing is enabled. -/
def traceSentStep (useLemma : Bool) (targets : List (List Char))
    (det : Option (List Char → List Char)) (maxRows : Nat) (label : List Char)
    (chunkIdx chunkBase : Nat) (st : TraceState) (si : Nat × PySentence) :
    TraceState :=
  (enumFrom 1 (_iter_sentence_words_with_offsets si.2)).foldl
    (fun s p =>
      traceTokenStep useLemma targets det maxRows label chunkIdx chunkBase
        si.1 (if st.trace_enabled then si.2.text else []) s p.1 p.2) st

/-- The per-chunk loop body (nlp.py lines 414–476): annotate the chunk,
fold its sentences, then advance the cumulative base offset. -/
def traceChunkStep (annotate : List Char → PyDoc) (useLemma : Bool)
    (targets : List (List Char)) (det : Option (List Char → List Char))
    (maxRows : Nat) (label : List Char) (acc : TraceState × Nat)
    (kc : Nat × List Char) : TraceState × Nat :=
  ((enumFrom 1 (annotate kc.2).sentences).foldl
      (traceSentStep useLemma targets det maxRows label kc.1 acc.2) acc.1,
    acc.2 + kc.2.length)

/-- `_count_nouns_streaming_trace` (nlp.py lines 348–478): the final state
after all chunks.  `.total` is the returned `Counter`; `.rows` are the data
rows written to the trace TSV.  Empty text returns immediately, before the
file is even opened. -/
def count_nouns_streaming_trace (annotate : List Char → PyDoc) (useLemma : Bool)
    (targets : List (List Char)) (det : Option (List Char → List Char))
    (chunkChars : Nat) (label : List Char) (maxRows : Nat) (text : List Char) :
    TraceState :=
  if text = [] then initTraceState
  else ((enumFrom 1 (iter_char_chunks text chunkChars)).foldl
    (traceChunkStep annotate useLemma targets det maxRows label)
    (initTraceState, 0)).1

/-- A line of the trace TSV file. -/
inductive TraceFileRow
  | header
  | row (r : TraceRow)
deriving DecidableEq

/-- The trace TSV contents after one call of
`_count_nouns_streaming_trace`, as a function of the previous contents
(`none` = the file did not exist).  The file is opened with mode `"w"`
(truncate) at nlp.py line 410 — but only after the early `if not text`
return at lines 383–385, which leaves the file untouched. -/
def trace_file_after (prior : Option (List TraceFileRow))
    (annotate : List Char → PyDoc) (useLemma : Bool)
    (targets : List (List Char)) (det : Option (List Char → List Char))
    (chunkChars : Nat) (label : List Char) (maxRows : Nat) (text : List Char) :
    Option (List TraceFileRow) :=
  if text = [] then prior
  else some (TraceFileRow.header ::
    (count_nouns_streaming_trace annotate useLemma targets det chunkChars
      label maxRows text).rows.map TraceFileRow.row)

/-! ## Cleaners (`latin/cleaners/cleaners.py`)

Rule regexes are opaque collaborators: a `LineRemoveRule` carries the
truthiness of `pattern.match(stripped)`; a `SubstituteRule` carries
`len(pattern.findall(line))` and `pattern.sub(repl, line)`. -/

/-- A rule's `ref` metadata as loaded from YAML: absent, a string, or a
structured mapping (missing dict entries collapse to `""`, exactly as
`flatten_ref` reads them via `ref.get(…, "") or ""`). -/
inductive RefVal
  | noneVal
  | strVal (s : List Char)
  | dictVal (key author work loc : List Char)
deriving Repr

/-- The four flattened TSV reference columns. -/
structure FlatRef where
  ref_key : List Char
  ref_author : List Char
  ref_work : List Char
  ref_loc : List Char
deriving DecidableEq, Repr

/-- Python `s.strip(":")`. -/
def stripColons (l : List Char) : List Char :=
  ((l.dropWhile (fun c => c = ':')).reverse.dropWhile (fun c => c = ':')).reverse

/-- `flatten_ref` (cleaners.py lines 68–104). -/
def flatten_ref : RefVal → FlatRef
  | .noneVal => ⟨[], [], [], []⟩
  | .strVal s0 =>
    let s := stripChars s0
    if ':' ∈ s then
      ⟨s, stripChars (s.takeWhile (fun c => c ≠ ':')),
        stripChars ((s.dropWhile (fun c => c ≠ ':')).tail), []⟩
    else ⟨s, [], [], []⟩
  | .dictVal key author work loc =>
    let k := stripChars key
    let a := stripChars author
    let w := stripChars work
    let lo := stripChars loc
    if k = [] ∧ (a ≠ [] ∨ w ≠ []) then
      ⟨stripColons (a ++ [':'] ++ w), a, w, lo⟩
    else ⟨k, a, w, lo⟩

/-- `LineRemoveRule` (cleaners.py lines 22–31): `matches'` is the truthiness
of `pattern.match` on the trimmed line. -/
structure LineRemoveRule where
  matches' : List Char → Bool
  ref : RefVal
  name : List Char

/-- `SubstituteRule` (cleaners.py lines 34–44): `count` is
`len(pattern.findall(line))`, `subst` is `pattern.sub(repl, line)`. -/
structure SubstituteRule where
  count : List Char → Nat
  subst : List Char → List Char
  ref : RefVal
  name : List Char

/-- `RefEvent` (cleaners.py lines 47–65). -/
structure RefEvent where
  doc_id : List Char
  kind : List Char
  rule_name : List Char
  action : List Char
  line_no : Nat
  match_count : Nat
  ref_key : List Char
  ref_author : List Char
  ref_work : List Char
  ref_loc : List Char
  text_snippet : List Char
deriving DecidableEq, Repr

/-- The `drop_line` RefEvent built inside the remove-rule loop. -/
def mkDropEvent (kind docId : List Char) (r : LineRemoveRule)
    (relI snippetChars : Nat) (line : List Char) : RefEvent :=
  { doc_id := docId, kind := kind, rule_name := r.name,
    action := "drop_line".data, line_no := relI, match_count := 1,
    ref_key := (flatten_ref r.ref).ref_key,
    ref_author := (flatten_ref r.ref).ref_author,
    ref_work := (flatten_ref r.ref).ref_work,
    ref_loc := (flatten_ref r.ref).ref_loc,
    text_snippet := line.take snippetChars }

/-- The `substitute` RefEvent built inside the substitute-rule loop. -/
def mkSubEvent (kind docId : List Char) (r : SubstituteRule)
    (relI m snippetChars : Nat) (snippetSrc : List Char) : RefEvent :=
  { doc_id := docId, kind := kind, rule_name := r.name,
    action := "substitute".data, line_no := relI, match_count := m,
    ref_key := (flatten_ref r.ref).ref_key,
    ref_author := (flatten_ref r.ref).ref_author,
    ref_work := (flatten_ref r.ref).ref_work,
    ref_loc := (flatten_ref r.ref).ref_loc,
    text_snippet := snippetSrc.take snippetChars }

/-- The per-line body of `clean_corpus_corporum_text` (cleaners.py lines
292–347): `none` when the line is dropped.  `refEnabled` is
`ref_tsv is not None`.  Note that the substitute-event snippet is always
`stripped[:snippet_chars]`, where `stripped` is the trimmed *original*
line, computed once at line 294. -/
def processLineCC (removeRules : List LineRemoveRule)
    (subRules : List SubstituteRule) (refEnabled : Bool) (docId : List Char)
    (snippetChars relI : Nat) (rawLine : List Char) :
    Option (List Char) × List RefEvent :=
  let line := rstripNl rawLine
  let stripped := stripChars line
  match removeRules.find? (fun r => r.matches' stripped) with
  | some r =>
    (none,
      if refEnabled then
        [mkDropEvent "corpus_corporum".data docId r relI snippetChars line]
      else [])
  | none =>
    let res := subRules.foldl
      (fun (acc : List Char × List RefEvent) rule =>
        if rule.count acc.1 ≠ 0 then
          (rule.subst acc.1,
            acc.2 ++
              (if refEnabled then
                [mkSubEvent "corpus_corporum".data docId rule relI
                  (rule.count acc.1) snippetChars stripped]
              else []))
        else acc)
      (line, [])
    (some (replaceTabs res.1), res.2)

/-- The per-line body of `clean_scholastic_text` (cleaners.py lines
384–436): same as the corpus_corporum body, but without the
`rstrip("\n")`, without the tab replacement, and with kind
`"scholastic_text"`. -/
def processLineSch (removeRules : List LineRemoveRule)
    (subRules : List SubstituteRule) (refEnabled : Bool) (docId : List Char)
    (snippetChars relI : Nat) (line : List Char) :
    Option (List Char) × List RefEvent :=
  let stripped := stripChars line
  match removeRules.find? (fun r => r.matches' stripped) with
  | some r =>
    (none,
      if refEnabled then
        [mkDropEvent "scholastic_text".data docId r relI snippetChars line]
      else [])
  | none =>
    let res := subRules.foldl
      (fun (acc : List Char × List RefEvent) rule =>
        if rule.count acc.1 ≠ 0 then
          (rule.subst acc.1,
            acc.2 ++
              (if refEnabled then
                [mkSubEvent "scholastic_text".data docId rule relI
                  (rule.count acc.1) snippetChars stripped]
              else []))
        else acc)
      (line, [])
    (some res.1, res.2)

/-- Modelled from the spec (§4.3 step 2), under the reading of claim C6
where "pre-substitution" refers to the line content just before *this
rule's* substitution: evaluate each substitute rule in sequence against
the current, progressively modified line; count matches before
substituting; on a positive count substitute and emit an event whose
snippet is the *trimmed current pre-substitution* line, truncated. -/
def specSubLoopC6 (kind docId : List Char) (refEnabled : Bool)
    (relI snippetChars : Nat) :
    List SubstituteRule → List Char → List Char × List RefEvent
  | [], cur => (cur, [])
  | r :: rs, cur =>
    let m := r.count cur
    if 0 < m then
      let rest :=
        specSubLoopC6 kind docId refEnabled relI snippetChars rs (r.subst cur)
      (rest.1,
        (if refEnabled then
          [mkSubEvent kind docId r relI m snippetChars (stripChars cur)]
        else []) ++ rest.2)
    else specSubLoopC6 kind docId refEnabled relI snippetChars rs cur

/-- The amended substitute-loop specification: identical to
`specSubLoopC6` except that every event's snippet comes from the trimmed
*original* line (trim computed before any substitution), which is what the
code logs. -/
def specSubLoopAmended (kind docId : List Char) (refEnabled : Bool)
    (relI snippetChars : Nat) (origTrimmed : List Char) :
    List SubstituteRule → List Char → List Char × List RefEvent
  | [], cur => (cur, [])
  | r :: rs, cur =>
    let m := r.count cur
    if 0 < m then
      let rest :=
        specSubLoopAmended kind docId refEnabled relI snippetChars origTrimmed
          rs (r.subst cur)
      (rest.1,
        (if refEnabled then
          [mkSubEvent kind docId r relI m snippetChars origTrimmed]
        else []) ++ rest.2)
    else
      specSubLoopAmended kind docId refEnabled relI snippetChars origTrimmed
        rs cur

/-- A line of the provenance (RefEvent) TSV file. -/
inductive ProvFileRow
  | header
  | event (e : RefEvent)
deriving DecidableEq

/-- `_write_ref_events_tsv` (cleaners.py lines 188–228): the file is
opened in append mode; the header row is written only when the file did
not previously exist (`none`). -/
def _write_ref_events_tsv (prior : Option (List ProvFileRow))
    (events : List RefEvent) : List ProvFileRow :=
  (match prior with
    | some rows => rows
    | none => []) ++
  (match prior with
    | some _ => []
    | none => [ProvFileRow.header]) ++
  events.map ProvFileRow.event

/-! ## Lexicon mapper (`apply_lexicon_map`, cleaners.py lines 171–185)

The compiled pattern is a literal alternation
`\b(k1|k2|…)\b` with the keys ordered by descending length (Python
`sorted(…, key=len, reverse=True)` is stable).  `re.sub` is embedded
directly for this literal-alternation shape: scan left to right, at each
position try the alternatives in order; an alternative matches when it is
a prefix of the remaining text and both `\b` assertions hold.  Word
characters follow `\w` (letters, digits, underscore; the corpora are
ASCII). -/

def isWordChar (c : Char) : Bool :=
  c.isAlpha || c.isDigit || c = '_'

/-- Head wordness of the remaining text (`false` past the end of the
string: positions outside the text count as non-word). -/
def headIsWord : List Char → Bool
  | [] => false
  | c :: _ => isWordChar c

/-- Stable insertion for descending length order: a key is placed before
the first key that is not strictly longer, so earlier equal-length keys
keep their relative order (Python's stable `sorted`). -/
def insertKeyDesc (k : List Char) : List (List Char) → List (List Char)
  | [] => [k]
  | x :: xs => if k.length < x.length then x :: insertKeyDesc k xs else k :: x :: xs

/-- `sorted(mapping.keys(), key=len, reverse=True)`. -/
def sortKeysDesc (keys : List (List Char)) : List (List Char) :=
  keys.foldr insertKeyDesc []

/-- Python `dict.get(k, dflt)` over an insertion-ordered association
list. -/
def lookupD (m : List (List Char × List Char)) (k dflt : List Char) : List Char :=
  match m.find? (fun p => p.1 == k) with
  | some p => p.2
  | none => dflt

/-- Does alternative `k` of the pattern `\b(k1|…|kn)\b` match at the
current position?  `prevWord` is the wordness of the character just before
the position; `rest` is the remaining text. -/
def keyMatchesAt (prevWord : Bool) (rest : List Char) (k : List Char) : Bool :=
  match k with
  | [] => prevWord != headIsWord rest
  | c :: cs =>
    List.isPrefixOf (c :: cs) rest
    && (prevWord != isWordChar c)
    && (isWordChar ((c :: cs).getLast (List.cons_ne_nil c cs))
          != headIsWord (rest.drop (c :: cs).length))

/-- The scan of `pattern.sub(repl, text)` for the literal alternation: at
each position, the first (longest, by the sort) matching alternative is
replaced through the mapping and the scan resumes after it; otherwise the
character is copied.  The scan consumes at least one character per step,
so fuel `text.length + 1` always suffices (`lexSubGo_fuel_stable`). -/
def lexSubGo (keys : List (List Char)) (m : List (List Char × List Char)) :
    Nat → Bool → List Char → List Char
  | 0, _, _ => []
  | _ + 1, prevWord, [] =>
    match keys.find? (keyMatchesAt prevWord []) with
    | some k => lookupD m k k
    | none => []
  | fuel + 1, prevWord, c :: rest =>
    match keys.find? (keyMatchesAt prevWord (c :: rest)) with
    | some [] =>
      lookupD m [] [] ++ c :: lexSubGo keys m fuel (isWordChar c) rest
    | some (k0 :: ks) =>
      lookupD m (k0 :: ks) (k0 :: ks) ++
        lexSubGo keys m fuel
          (isWordChar ((k0 :: ks).getLast (List.cons_ne_nil k0 ks)))
          ((c :: rest).drop (k0 :: ks).length)
    | none => c :: lexSubGo keys m fuel (isWordChar c) rest

/-- `apply_lexicon_map` (cleaners.py lines 171–185). -/
def apply_lexicon_map (text : List Char) (m : List (List Char × List Char)) :
    List Char :=
  if text = [] ∨ m = [] then text
  else lexSubGo (sortKeysDesc (m.map Prod.fst)) m (text.length + 1) false text

/-- Modelled from the spec (§3 invariant, §4.2): word-level application —
split the text into maximal word-character runs; a run that is a key of
the map is replaced by its value, everything else is copied.  Fueled like
the scan; fuel `text.length + 1` always suffices.  Used to state the
word-boundary safety of `apply_lexicon_map`. -/
def wordwiseGo (m : List (List Char × List Char)) :
    Nat → List Char → List Char
  | 0, _ => []
  | _ + 1, [] => []
  | fuel + 1, c :: rest =>
    if isWordChar c then
      lookupD m ((c :: rest).takeWhile isWordChar)
          ((c :: rest).takeWhile isWordChar) ++
        wordwiseGo m fuel (rest.dropWhile isWordChar)
    else c :: wordwiseGo m fuel rest

/-- Word-level application of a lexicon map to a whole text. -/
def wordwiseApply (m : List (List Char × List Char)) (text : List Char) :
    List Char :=
  wordwiseGo m (text.length + 1) text

/-! ## Lexicon TSV loader (`load_lexicon_map_tsv`, cleaners.py lines
145–168) -/

/-- Python `s.split("\t")`: split at every tab, keeping empty fields. -/
def splitTabs : List Char → List (List Char)
  | [] => [[]]
  | c :: rest =>
    match splitTabs rest with
    | [] => [[c]]
    | h :: t => if c = '\t' then [] :: h :: t else (c :: h) :: t

/-- Python `mapping[src] = dst` on an insertion-ordered association list:
an existing key is updated in place, a new key is appended. -/
def dictInsert (m : List (List Char × List Char)) (k v : List Char) :
    List (List Char × List Char) :=
  match m with
  | [] => [(k, v)]
  | (k', v') :: t => if k' = k then (k, v) :: t else (k', v') :: dictInsert t k v

/-- The loop of `load_lexicon_map_tsv` over the file's lines
(`read_text().splitlines()`), with the mapping accumulated so far.  A
non-blank, non-comment line whose stripped content splits into fewer than
two tab-separated fields raises (`.error`, Python `ValueError`). -/
def loadLexLoop : List (List Char) → List (List Char × List Char) →
    Except (List Char) (List (List Char × List Char))
  | [], m => .ok m
  | line :: rest, m =>
    let s := stripChars line
    if s = [] ∨ s.head? = some '#' then loadLexLoop rest m
    else
      let parts := splitTabs s
      if parts.length < 2 then
        .error ("Bad lexicon map row (need TSV from<TAB>to): ".data ++ line)
      else
        let src := stripChars (parts.headI)
        let dst := stripChars (parts.tail.headI)
        if src = [] then loadLexLoop rest m
        else loadLexLoop rest (dictInsert m src dst)

/-- `load_lexicon_map_tsv` (cleaners.py lines 145–168), taking the file's
lines (the result of `read_text().splitlines()`). -/
def load_lexicon_map_tsv (lines : List (List Char)) :
    Except (List Char) (List (List Char × List Char)) :=
  loadLexLoop lines []

/-- Is this Except an `error`? -/
def exceptIsError {ε α : Type} : Except ε α → Bool
  | .error _ => true
  | .ok _ => false

/-! ## Claim theorems -/

theorem iter_char_chunks_flatten_eq (text : List Char) (c : Nat)
    (hc : 1 ≤ c) : (iter_char_chunks text c).flatten = text := by
  have h := @chunksGo_flatten text c hc text.length 0
    (by omega)
  simpa [iter_char_chunks] using h

/-- C2: for every text and every chunk size ≥ 1, concatenating, in order,
all chunks yielded by `iter_char_chunks` equals the original text exactly,
with no overlap and no gap. -/
theorem iter_char_chunks_reconstruction (text : List Char) (c : Nat)
    (hc : 1 ≤ c) : (iter_char_chunks text c).flatten = text :=
  iter_char_chunks_flatten_eq text c hc

theorem iter_char_chunks_reconstruction_witness :
    1 ≤ 3 ∧ (iter_char_chunks "ab cd ef".data 3).flatten = "ab cd ef".data :=
  ⟨by decide, iter_char_chunks_reconstruction "ab cd ef".data 3 (by decide)⟩

/-- C8: for every text and every chunk size ≥ 1, the Chunker terminates
after yielding finitely many chunks (the loop is fuel-stable once the fuel
covers the text, and yields at most one chunk per character), every chunk
is non-empty and at most the size limit, and on input with no space and no
newline every chunk is forced to exactly the size limit (plain fixed-size
splitting) instead of looping forever. -/
theorem iter_char_chunks_totality (text : List Char) (c : Nat) (hc : 1 ≤ c) :
    (∀ ch ∈ iter_char_chunks text c, ch ≠ [] ∧ ch.length ≤ c) ∧
    (∀ f, text.length ≤ f → chunksGo text c 0 f = iter_char_chunks text c) ∧
    (iter_char_chunks text c).length ≤ text.length ∧
    (' ' ∉ text → '\n' ∉ text → iter_char_chunks text c = plainChunks c text) := by
  refine ⟨?_, ?_, ?_, ?_⟩
  · intro ch hch
    exact chunksGo_mem_shape hc text.length 0 ch hch
  · intro f hf
    exact chunksGo_fuel_stable hc f text.length 0 (by omega) (by omega)
  · -- each chunk is nonempty, and they concatenate to the text
    have hrec := iter_char_chunks_flatten_eq text c hc
    have hlen : ((iter_char_chunks text c).map List.length).sum = text.length := by
      rw [← List.length_flatten, hrec]
    have hone : ∀ n ∈ (iter_char_chunks text c).map List.length, 1 ≤ n := by
      intro n hn
      rcases List.mem_map.mp hn with ⟨ch, hch, hchn⟩
      have := (chunksGo_mem_shape hc text.length 0 ch hch).1
      subst hchn
      cases ch with
      | nil => exact absurd rfl this
      | cons a l => simp
    calc (iter_char_chunks text c).length
        = ((iter_char_chunks text c).map List.length).length := by
          rw [List.length_map]
      _ ≤ ((iter_char_chunks text c).map List.length).sum :=
          List.length_le_sum_of_one_le _ hone
      _ = text.length := hlen
  · intro hsp hnl
    have h := @chunksGo_no_ws text c hsp hnl
      text.length 0
    simpa [iter_char_chunks, plainChunks] using h

theorem iter_char_chunks_totality_witness :
    1 ≤ 2 ∧
    ((∀ ch ∈ iter_char_chunks "abcde".data 2, ch ≠ [] ∧ ch.length ≤ 2) ∧
      (∀ f, ("abcde".data).length ≤ f →
        chunksGo "abcde".data 2 0 f = iter_char_chunks "abcde".data 2) ∧
      (iter_char_chunks "abcde".data 2).length ≤ ("abcde".data).length ∧
      (' ' ∉ "abcde".data → '\n' ∉ "abcde".data →
        iter_char_chunks "abcde".data 2 = plainChunks 2 "abcde".data)) :=
  ⟨by decide, iter_char_chunks_totality "abcde".data 2 (by decide)⟩

/-- A lexicon file line the loader rejects: non-blank after stripping,
not a comment (stripped line starting with `#`), and with fewer than two
tab-separated fields. -/
def isBadLexRow (line : List Char) : Bool :=
  !((stripChars line).isEmpty || ((stripChars line).head? == some '#'))
    && decide ((splitTabs (stripChars line)).length < 2)

theorem loadLexLoop_error_iff :
    ∀ (lines : List (List Char)) (m : List (List Char × List Char)),
      exceptIsError (loadLexLoop lines m) = lines.any isBadLexRow := by
  intro lines
  induction lines with
  | nil => intro m; rfl
  | cons line rest ih =>
    intro m
    rw [loadLexLoop, List.any_cons]
    by_cases hskip : stripChars line = [] ∨ (stripChars line).head? = some '#'
    · rw [if_pos hskip, ih]
      have hbad : isBadLexRow line = false := by
        unfold isBadLexRow
        rcases hskip with h | h
        · simp [h]
        · simp [h]
      rw [hbad]
      simp
    · rw [if_neg hskip]
      push_neg at hskip
      by_cases hlt : (splitTabs (stripChars line)).length < 2
      · rw [if_pos hlt]
        have hbad : isBadLexRow line = true := by
          unfold isBadLexRow
          simp only [Bool.and_eq_true, Bool.not_eq_true', Bool.or_eq_false_iff,
            decide_eq_true_eq]
          refine ⟨⟨?_, ?_⟩, hlt⟩
          · simpa [List.isEmpty_iff] using hskip.1
          · simp only [beq_eq_false_iff_ne, ne_eq]
            exact hskip.2
        rw [hbad]
        rfl
      · rw [if_neg hlt]
        have hbad : isBadLexRow line = false := by
          unfold isBadLexRow
          simp [hlt]
        rw [hbad]
        by_cases hsrc : stripChars (splitTabs (stripChars line)).headI = []
        · rw [if_pos hsrc, ih]
          simp
        · rw [if_neg hsrc, ih]
          simp

/-- C9 (amended): loading fails with an error exactly when some line of
the file is non-blank (after stripping), not a comment, and has *fewer
than two* tab-separated fields.  (The claim's "exactly two" is refuted by
`load_lexicon_map_tsv_cex`: a three-field row loads fine.)  Blank lines
and comment lines are never such rows, so they never cause failure. -/
theorem load_lexicon_map_tsv_error_iff (lines : List (List Char)) :
    exceptIsError (load_lexicon_map_tsv lines) = lines.any isBadLexRow :=
  loadLexLoop_error_iff lines []

/-- C9 counterexample: the row `"a\tb\tc"` has three tab-separated fields
— not "exactly two" — yet `load_lexicon_map_tsv` succeeds on it, against
the claim that it fails exactly on rows without exactly two fields. -/
theorem load_lexicon_map_tsv_cex :
    exceptIsError (load_lexicon_map_tsv ["a\tb\tc".data]) = false ∧
    stripChars "a\tb\tc".data ≠ [] ∧
    (stripChars "a\tb\tc".data).head? ≠ some '#' ∧
    (splitTabs (stripChars "a\tb\tc".data)).length ≠ 2 := by
  decide

/-- A pre-existing trace row, for exercising the truncation model. -/
def junkTraceRow : TraceRow :=
  { label := [], chunk := 0, sent_idx := 0, token_idx := 0,
    token_char_start_in_chunk := none, token_char_start_in_text := none,
    sentence := [], token := [], lemma' := [], upos := [], ref_tag := [],
    global_row := 0 }

/-- An annotator that never produces sentences. -/
def annEmpty : List Char → PyDoc := fun _ => ⟨[]⟩

/-- C10 counterexample: a call of the trace aggregator with *empty* text
returns before opening the file (nlp.py lines 383–385), so the prior
contents survive — against the claim that *every* call truncates the file
and leaves exactly one header row plus the rows of that call. -/
theorem trace_file_truncation_cex :
    trace_file_after (some [TraceFileRow.row junkTraceRow]) annEmpty true
        ["NOUN".data] none 10 [] 0 []
      = some [TraceFileRow.row junkTraceRow] ∧
    some [TraceFileRow.row junkTraceRow] ≠
      some (TraceFileRow.header ::
        (count_nouns_streaming_trace annEmpty true ["NOUN".data] none 10 [] 0
          []).rows.map TraceFileRow.row) := by
  constructor
  · rfl
  · decide

/-- C10 (amended): every call of the trace-path aggregator *with non-empty
text* opens the trace file in write (truncate) mode, so whatever the file
held before is discarded and it afterwards contains exactly one header row
followed by the rows written during that call, independently of the prior
contents; the provenance log, by contrast, always appends to an existing
file and never discards it. -/
theorem trace_file_truncation_amended (prior : Option (List TraceFileRow))
    (annotate : List Char → PyDoc) (useLemma : Bool)
    (targets : List (List Char)) (det : Option (List Char → List Char))
    (chunkChars : Nat) (label : List Char) (maxRows : Nat) (text : List Char)
    (h : text ≠ []) :
    trace_file_after prior annotate useLemma targets det chunkChars label
        maxRows text
      = some (TraceFileRow.header ::
          (count_nouns_streaming_trace annotate useLemma targets det chunkChars
            label maxRows text).rows.map TraceFileRow.row) ∧
    (∀ (priorRows : List ProvFileRow) (events : List RefEvent),
      _write_ref_events_tsv (some priorRows) events
        = priorRows ++ events.map ProvFileRow.event) := by
  constructor
  · unfold trace_file_after
    rw [if_neg h]
  · intro priorRows events
    unfold _write_ref_events_tsv
    simp

theorem trace_file_truncation_amended_witness :
    ("x".data ≠ []) ∧
    (trace_file_after none annEmpty true ["NOUN".data] none 10 [] 0 "x".data
      = some (TraceFileRow.header ::
          (count_nouns_streaming_trace annEmpty true ["NOUN".data] none 10 []
            0 "x".data).rows.map TraceFileRow.row) ∧
    (∀ (priorRows : List ProvFileRow) (events : List RefEvent),
      _write_ref_events_tsv (some priorRows) events
        = priorRows ++ events.map ProvFileRow.event)) :=
  ⟨by decide,
    trace_file_truncation_amended none annEmpty true ["NOUN".data] none 10 []
      0 "x".data (by decide)⟩

/-- C5: for every body line matching some remove-line rule (evaluated
against the trimmed line), both cleaners discard the line entirely — no
substitute rule is evaluated — and record exactly one `drop_line` RefEvent
with `match_count = 1` (built from the first matching rule) when an event
sink is attached, and none otherwise. -/
theorem drop_line_short_circuit (removeRules : List LineRemoveRule)
    (subRules : List SubstituteRule) (refEnabled : Bool) (docId : List Char)
    (snippetChars relI : Nat) (rawLine : List Char)
    (h : ∃ r ∈ removeRules, r.matches' (stripChars rawLine) = true) :
    (processLineCC removeRules subRules refEnabled docId snippetChars relI
      rawLine).1 = none ∧
    (processLineSch removeRules subRules refEnabled docId snippetChars relI
      rawLine).1 = none ∧
    (refEnabled = true →
      (∃ r ∈ removeRules,
        (processLineCC removeRules subRules refEnabled docId snippetChars
          relI rawLine).2
          = [mkDropEvent "corpus_corporum".data docId r relI snippetChars
              (rstripNl rawLine)]) ∧
      (∃ r ∈ removeRules,
        (processLineSch removeRules subRules refEnabled docId snippetChars
          relI rawLine).2
          = [mkDropEvent "scholastic_text".data docId r relI snippetChars
              rawLine])) ∧
    (refEnabled = false →
      (processLineCC removeRules subRules refEnabled docId snippetChars relI
        rawLine).2 = [] ∧
      (processLineSch removeRules subRules refEnabled docId snippetChars relI
        rawLine).2 = []) ∧
    (∀ e ∈ (processLineCC removeRules subRules refEnabled docId snippetChars
        relI rawLine).2 ++
        (processLineSch removeRules subRules refEnabled docId snippetChars
          relI rawLine).2,
      e.action = "drop_line".data ∧ e.match_count = 1) := by
  have hpred : (fun r : LineRemoveRule =>
      r.matches' (stripChars (rstripNl rawLine)))
      = (fun r : LineRemoveRule => r.matches' (stripChars rawLine)) := by
    funext r
    rw [stripChars_rstripNl]
  rcases h with ⟨r, hrmem, hrm⟩
  have hsome : (removeRules.find?
      (fun r => r.matches' (stripChars rawLine))).isSome := by
    rw [List.find?_isSome]
    exact ⟨r, hrmem, hrm⟩
  rcases Option.isSome_iff_exists.mp hsome with ⟨r₀, hfind⟩
  have hCC : processLineCC removeRules subRules refEnabled docId snippetChars
      relI rawLine
      = (none,
        if refEnabled then
          [mkDropEvent "corpus_corporum".data docId r₀ relI snippetChars
            (rstripNl rawLine)]
        else []) := by
    simp only [processLineCC]
    rw [hpred, hfind]
  have hSch : processLineSch removeRules subRules refEnabled docId
      snippetChars relI rawLine
      = (none,
        if refEnabled then
          [mkDropEvent "scholastic_text".data docId r₀ relI snippetChars
            rawLine]
        else []) := by
    simp only [processLineSch]
    rw [hfind]
  have hr₀mem : r₀ ∈ removeRules := List.mem_of_find?_eq_some hfind
  refine ⟨by rw [hCC], by rw [hSch], ?_, ?_, ?_⟩
  · intro hre
    subst hre
    refine ⟨⟨r₀, hr₀mem, ?_⟩, ⟨r₀, hr₀mem, ?_⟩⟩
    · rw [hCC]
      simp
    · rw [hSch]
      simp
  · intro hre
    subst hre
    constructor
    · rw [hCC]
      simp
    · rw [hSch]
      simp
  · intro e he
    rw [hCC, hSch] at he
    cases refEnabled with
    | false => simp at he
    | true =>
      rw [if_pos rfl, if_pos rfl, List.singleton_append] at he
      rcases List.mem_cons.mp he with he | he
      · subst he
        exact ⟨rfl, rfl⟩
      · have he' := List.mem_singleton.mp he
        subst he'
        exact ⟨rfl, rfl⟩

/-- A concrete remove rule matching exactly the trimmed line `"xx"`. -/
def remRuleXX : LineRemoveRule :=
  ⟨fun s => s == "xx".data, RefVal.noneVal, "rm-xx".data⟩

theorem drop_line_short_circuit_witness :
    (processLineCC [remRuleXX] [] true [] 200 1 "  xx  ".data).1 = none :=
  (drop_line_short_circuit [remRuleXX] [] true [] 200 1 "  xx  ".data
    ⟨remRuleXX, List.mem_singleton.mpr rfl, by decide⟩).1

theorem subFold_spec (kind docId : List Char) (refEnabled : Bool)
    (relI snippetChars : Nat) (origTrimmed : List Char) :
    ∀ (rs : List SubstituteRule) (cur : List Char) (evs : List RefEvent),
      rs.foldl (fun (acc : List Char × List RefEvent) rule =>
        if rule.count acc.1 ≠ 0 then
          (rule.subst acc.1,
            acc.2 ++
              (if refEnabled then
                [mkSubEvent kind docId rule relI (rule.count acc.1)
                  snippetChars origTrimmed]
              else []))
        else acc) (cur, evs)
      = ((specSubLoopAmended kind docId refEnabled relI snippetChars
            origTrimmed rs cur).1,
         evs ++ (specSubLoopAmended kind docId refEnabled relI snippetChars
            origTrimmed rs cur).2) := by
  intro rs
  induction rs with
  | nil =>
    intro cur evs
    simp [specSubLoopAmended]
  | cons r rest ih =>
    intro cur evs
    rw [List.foldl_cons]
    by_cases hm : r.count cur ≠ 0
    · have h0 : 0 < r.count cur := Nat.pos_of_ne_zero hm
      rw [if_pos hm, ih]
      simp only [specSubLoopAmended]
      rw [if_pos h0]
      simp [List.append_assoc]
    · have h0 : ¬ 0 < r.count cur := by omega
      rw [if_neg hm, ih]
      simp only [specSubLoopAmended]
      rw [if_neg h0]

/-- C6 (amended): for every surviving line, both cleaners evaluate the
substitute rules in sequence against the current, progressively modified
line content, count matches before substituting, substitute only on a
positive count, and emit events whose `match_count` is the
pre-substitution match count — but whose `text_snippet` is the trimmed
*original* line truncated to the snippet length (not the trimmed
pre-substitution current line, see `substitute_snippet_cex`). -/
theorem substitute_events_amended (removeRules : List LineRemoveRule)
    (subRules : List SubstituteRule) (refEnabled : Bool) (docId : List Char)
    (snippetChars relI : Nat) (rawLine : List Char)
    (h : ∀ r ∈ removeRules, r.matches' (stripChars rawLine) = false) :
    processLineCC removeRules subRules refEnabled docId snippetChars relI
        rawLine
      = (some (replaceTabs
          (specSubLoopAmended "corpus_corporum".data docId refEnabled relI
            snippetChars (stripChars (rstripNl rawLine)) subRules
            (rstripNl rawLine)).1),
        (specSubLoopAmended "corpus_corporum".data docId refEnabled relI
          snippetChars (stripChars (rstripNl rawLine)) subRules
          (rstripNl rawLine)).2) ∧
    processLineSch removeRules subRules refEnabled docId snippetChars relI
        rawLine
      = (some (specSubLoopAmended "scholastic_text".data docId refEnabled
          relI snippetChars (stripChars rawLine) subRules rawLine).1,
        (specSubLoopAmended "scholastic_text".data docId refEnabled relI
          snippetChars (stripChars rawLine) subRules rawLine).2) := by
  have hpred : (fun r : LineRemoveRule =>
      r.matches' (stripChars (rstripNl rawLine)))
      = (fun r : LineRemoveRule => r.matches' (stripChars rawLine)) := by
    funext r
    rw [stripChars_rstripNl]
  have hfind : removeRules.find?
      (fun r => r.matches' (stripChars rawLine)) = none := by
    rw [List.find?_eq_none]
    intro r hr
    simp [h r hr]
  constructor
  · simp only [processLineCC]
    rw [hpred, hfind,
      subFold_spec "corpus_corporum".data docId refEnabled relI snippetChars
        (stripChars (rstripNl rawLine)) subRules (rstripNl rawLine) []]
    rw [List.nil_append]
  · simp only [processLineSch]
    rw [hfind,
      subFold_spec "scholastic_text".data docId refEnabled relI snippetChars
        (stripChars rawLine) subRules rawLine []]
    rw [List.nil_append]

/-- A substitute rule firing once on `"ab"` and rewriting it to `"cd"`. -/
def subRuleC6a : SubstituteRule :=
  ⟨fun l => if l = "ab".data then 1 else 0, fun _ => "cd".data,
    RefVal.noneVal, "r1".data⟩

/-- A substitute rule firing once on `"cd"` and leaving it unchanged. -/
def subRuleC6b : SubstituteRule :=
  ⟨fun l => if l = "cd".data then 1 else 0, fun l => l,
    RefVal.noneVal, "r2".data⟩

/-- C6 counterexample: on line `"ab"`, rule `r1` rewrites the line to
`"cd"` and rule `r2` then fires on the *modified* content; the code logs
`r2`'s event with snippet `"ab"` (the trimmed original line), not `"cd"`
(the trimmed pre-substitution current line) as the claim states. -/
theorem substitute_snippet_cex :
    (processLineSch [] [subRuleC6a, subRuleC6b] true [] 200 1 "ab".data).2
      ≠ (specSubLoopC6 "scholastic_text".data [] true 1 200
          [subRuleC6a, subRuleC6b] "ab".data).2 ∧
    ((processLineSch [] [subRuleC6a, subRuleC6b] true [] 200 1
        "ab".data).2.map RefEvent.text_snippet
      = ["ab".data, "ab".data]) ∧
    ((specSubLoopC6 "scholastic_text".data [] true 1 200
        [subRuleC6a, subRuleC6b] "ab".data).2.map RefEvent.text_snippet
      = ["ab".data, "cd".data]) := by
  decide

theorem substitute_events_amended_witness :
    processLineSch [] [subRuleC6a, subRuleC6b] true [] 200 1 "ab".data
      = (some (specSubLoopAmended "scholastic_text".data [] true 1 200
          (stripChars "ab".data) [subRuleC6a, subRuleC6b] "ab".data).1,
        (specSubLoopAmended "scholastic_text".data [] true 1 200
          (stripChars "ab".data) [subRuleC6a, subRuleC6b] "ab".data).2) :=
  (substitute_events_amended [] [subRuleC6a, subRuleC6b] true [] 200 1
    "ab".data (by simp)).2

theorem chunksGo_stop {text : List Char} {c i fuel : Nat}
    (h : text.length ≤ i) : chunksGo text c i fuel = [] := by
  cases fuel with
  | zero => rfl
  | succ f => simp [chunksGo, Nat.not_lt.mpr h]

theorem chunkEnd_full {text : List Char} {c : Nat} (h : text.length ≤ c) :
    chunkEnd text c 0 = text.length := by
  unfold chunkEnd
  have h1 : min text.length (0 + c) = text.length := by omega
  rw [h1]
  simp

/-- With `chunk_chars = len(text)` the Chunker yields the whole text as a
single chunk. -/
theorem iter_char_chunks_single {text : List Char} (h : text ≠ []) :
    iter_char_chunks text text.length = [text] := by
  have hN : 0 < text.length := List.length_pos.mpr h
  obtain ⟨m, hm⟩ : ∃ m, text.length = m + 1 := ⟨text.length - 1, by omega⟩
  unfold iter_char_chunks
  rw [hm, chunksGo]
  rw [if_pos (by omega : 0 < text.length)]
  have hend : chunkEnd text (m + 1) 0 = text.length :=
    chunkEnd_full (by omega)
  rw [hend, chunksGo_stop (le_refl text.length)]
  simp

/-- A single NOUN word with key `"x"`. -/
def wordX : PyWord :=
  ⟨some "NOUN".data, some "x".data, some "x".data, none⟩

/-- A (legal) annotator that produces one NOUN token on the exact input
`"ab"` and nothing on any other input — annotation is not additive across
chunk boundaries. -/
def annC1 : List Char → PyDoc := fun s =>
  if s = "ab".data then ⟨[⟨[], [], [wordX]⟩]⟩ else ⟨[]⟩

/-- C1 counterexample: for the annotator `annC1` (whose chunk boundaries
do not depend on it — `iter_char_chunks` never consults the annotator),
streaming `"ab"` with chunk size 1 yields an empty NounCounter while a
single chunk covering the whole text yields one count of `"x"`; the
claimed equivalence fails for this annotator. -/
theorem count_nouns_streaming_chunk_size_cex :
    toCounter (count_nouns_streaming annC1 true ["NOUN".data] none 1
        "ab".data)
      ≠ toCounter (count_nouns_streaming annC1 true ["NOUN".data] none 2
        "ab".data) := by
  decide

/-- C1 (amended): streaming aggregation at any chunk size ≥ 1 equals
single-chunk aggregation *provided the annotator's counted-key stream is
additive over concatenation and empty on whitespace-only chunks* (for an
arbitrary annotator the equivalence fails:
`count_nouns_streaming_chunk_size_cex`). -/
theorem count_nouns_streaming_equivalence_amended
    (annotate : List Char → PyDoc) (useLemma : Bool)
    (targets : List (List Char)) (det : Option (List Char → List Char))
    (c : Nat) (text : List Char)
    (hadd : ∀ s t, count_nouns_doc useLemma targets det (annotate (s ++ t))
      = count_nouns_doc useLemma targets det (annotate s)
        ++ count_nouns_doc useLemma targets det (annotate t))
    (hblank : ∀ s, stripChars s = [] →
      count_nouns_doc useLemma targets det (annotate s) = [])
    (hc : 1 ≤ c) :
    toCounter (count_nouns_streaming annotate useLemma targets det c text)
      = toCounter (count_nouns_streaming annotate useLemma targets det
          text.length text) := by
  have hcn : ∀ ch, count_nouns annotate useLemma targets det ch
      = count_nouns_doc useLemma targets det (annotate ch) := by
    intro ch
    unfold count_nouns
    by_cases hch : ch = [] ∨ stripChars ch = []
    · rw [if_pos hch]
      rcases hch with h | h
      · subst h
        exact (hblank [] rfl).symm
      · exact (hblank ch h).symm
    · rw [if_neg hch]
  have hfn : (count_nouns annotate useLemma targets det)
      = fun ch => count_nouns_doc useLemma targets det (annotate ch) :=
    funext hcn
  have hflat : ∀ cs : List (List Char),
      (cs.map (fun ch =>
        count_nouns_doc useLemma targets det (annotate ch))).flatten
        = count_nouns_doc useLemma targets det (annotate cs.flatten) := by
    intro cs
    induction cs with
    | nil =>
      simp only [List.map_nil, List.flatten_nil]
      exact (hblank [] rfl).symm
    | cons ch cs ih =>
      simp only [List.map_cons, List.flatten_cons, List.flatten_cons, hadd,
        ih]
  by_cases htext : text = []
  · subst htext
    rfl
  · have h1 : count_nouns_streaming annotate useLemma targets det c text
        = count_nouns_doc useLemma targets det (annotate text) := by
      unfold count_nouns_streaming _count_nouns_streaming_fast
      rw [if_neg htext, hfn, hflat, iter_char_chunks_flatten_eq text c hc]
    have h2 : count_nouns_streaming annotate useLemma targets det
        text.length text
        = count_nouns_doc useLemma targets det (annotate text) := by
      unfold count_nouns_streaming _count_nouns_streaming_fast
      rw [if_neg htext, hfn, hflat, iter_char_chunks_single htext]
      simp
    rw [h1, h2]

/-- An additive annotator: one NOUN word (key `"x"`) per occurrence of the
character `x` in the chunk. -/
def annW : List Char → PyDoc := fun s =>
  ⟨[⟨[], [],
    s.filterMap (fun ch => if ch = 'x' then some wordX else none)⟩]⟩

theorem annW_keys (s : List Char) :
    count_nouns_doc true ["NOUN".data] none (annW s)
      = s.filterMap (fun ch => if ch = 'x' then some "x".data else none) := by
  unfold count_nouns_doc annW
  simp only [List.flatMap_cons, List.flatMap_nil, List.append_nil]
  have hiter : _iter_sentence_words
      ⟨[], [],
        s.filterMap (fun ch => if ch = 'x' then some wordX else none)⟩
      = s.filterMap (fun ch => if ch = 'x' then some wordX else none) := by
    unfold _iter_sentence_words
    by_cases hw : s.filterMap (fun ch => if ch = 'x' then some wordX else none) = []
    · simp [hw]
    · simp [hw]
  rw [hiter, List.filterMap_filterMap]
  congr 1
  funext ch
  by_cases h : ch = 'x'
  · subst h
    simp only [if_pos rfl]
    decide
  · simp [h]

theorem annW_hom (s t : List Char) :
    count_nouns_doc true ["NOUN".data] none (annW (s ++ t))
      = count_nouns_doc true ["NOUN".data] none (annW s)
        ++ count_nouns_doc true ["NOUN".data] none (annW t) := by
  rw [annW_keys, annW_keys, annW_keys, List.filterMap_append]

theorem annW_blank (s : List Char) (hs : stripChars s = []) :
    count_nouns_doc true ["NOUN".data] none (annW s) = [] := by
  rw [annW_keys]
  rw [List.filterMap_eq_nil_iff]
  intro ch hch
  have hsp := stripChars_eq_nil_iff.mp hs ch hch
  have hne : ch ≠ 'x' := by
    intro h
    subst h
    simp [isSpaceChar] at hsp
  simp [hne]

theorem count_nouns_streaming_equivalence_amended_witness :
    toCounter (count_nouns_streaming annW true ["NOUN".data] none 1
        "x x".data)
      = toCounter (count_nouns_streaming annW true ["NOUN".data] none
          ("x x".data).length "x x".data) :=
  count_nouns_streaming_equivalence_amended annW true ["NOUN".data] none 1
    "x x".data annW_hom annW_blank (by decide)

theorem foldl_rel {α β γ : Type} (R : β → γ → Prop) (f : β → α → β)
    (g : γ → α → γ) (hstep : ∀ b c a, R b c → R (f b a) (g c a)) :
    ∀ (l : List α) (b : β) (c : γ), R b c → R (l.foldl f b) (l.foldl g c) := by
  intro l
  induction l with
  | nil => intro b c h; exact h
  | cons x xs ih => intro b c h; exact ih _ _ (hstep b c x h)

theorem foldl_inv {α β : Type} (P : β → Prop) (f : β → α → β)
    (hstep : ∀ b a, P b → P (f b a)) :
    ∀ (l : List α) (b : β), P b → P (l.foldl f b) := by
  intro l
  induction l with
  | nil => intro b h; exact h
  | cons x xs ih => intro b h; exact ih _ (hstep b x h)

/-- The keys a single word contributes to the noun counter in the trace
path (at most one). -/
def tokenTotalAdd (useLemma : Bool) (targets : List (List Char))
    (det : Option (List Char → List Char)) (w : PyWord) : List (List Char) :=
  match w.upos with
  | none => []
  | some u =>
    if u ∈ targets then
      if traceKeyOf useLemma w ≠ [] then
        if (match det with
          | some d =>
            if traceKeyOf useLemma w ≠ [] then d (traceKeyOf useLemma w)
            else []
          | none => []) ≠ [] then []
        else [traceKeyOf useLemma w]
      else []
    else []

/-- The labels a single word contributes to the reference-tag counter in
the trace path (at most one). -/
def tokenRefAdd (useLemma : Bool) (targets : List (List Char))
    (det : Option (List Char → List Char)) (w : PyWord) : List (List Char) :=
  match w.upos with
  | none => []
  | some u =>
    if u ∈ targets then
      if traceKeyOf useLemma w ≠ [] then
        if (match det with
          | some d =>
            if traceKeyOf useLemma w ≠ [] then d (traceKeyOf useLemma w)
            else []
          | none => []) ≠ [] then
          [(match det with
            | some d =>
              if traceKeyOf useLemma w ≠ [] then d (traceKeyOf useLemma w)
              else []
            | none => [])]
        else []
      else []
    else []

/-- The counters accumulated by a trace token step: the word's
contribution is appended, independently of the row cap, tracing state,
sentence text and positions. -/
theorem traceTokenStep_proj (useLemma : Bool) (targets : List (List Char))
    (det : Option (List Char → List Char)) (cap : Nat)
    (label : List Char) (k b si : Nat) (stx : List Char)
    (st : TraceState) (i : Nat) (wo : PyWord × Option Nat) :
    (traceTokenStep useLemma targets det cap label k b si stx st i wo).total
      = st.total ++ tokenTotalAdd useLemma targets det wo.1 ∧
    (traceTokenStep useLemma targets det cap label k b si stx st i
      wo).refTotal
      = st.refTotal ++ tokenRefAdd useLemma targets det wo.1 := by
  rcases wo with ⟨w, off⟩
  unfold traceTokenStep tokenTotalAdd tokenRefAdd
  cases hu : w.upos with
  | none => simp
  | some u =>
    by_cases ht : u ∈ targets
    · simp only [if_pos ht]
      cases det with
      | none =>
        by_cases hkey : traceKeyOf useLemma w ≠ []
        · by_cases he : st.trace_enabled <;> simp [hkey, he]
        · by_cases he : st.trace_enabled <;> simp [hkey, he]
      | some d =>
        by_cases hkey : traceKeyOf useLemma w ≠ []
        · by_cases htag : d (traceKeyOf useLemma w) ≠ []
          · by_cases he : st.trace_enabled <;> simp [hkey, htag, he]
          · by_cases he : st.trace_enabled <;> simp [hkey, htag, he]
        · by_cases he : st.trace_enabled <;> simp [hkey, he]
    · simp [ht]

theorem traceSentStep_totals (useLemma : Bool) (targets : List (List Char))
    (det : Option (List Char → List Char)) (cap₁ cap₂ : Nat)
    (label : List Char) (k b : Nat) (st₁ st₂ : TraceState)
    (h : st₁.total = st₂.total ∧ st₁.refTotal = st₂.refTotal)
    (si : Nat × PySentence) :
    (traceSentStep useLemma targets det cap₁ label k b st₁ si).total
      = (traceSentStep useLemma targets det cap₂ label k b st₂ si).total ∧
    (traceSentStep useLemma targets det cap₁ label k b st₁ si).refTotal
      = (traceSentStep useLemma targets det cap₂ label k b st₂ si).refTotal := by
  unfold traceSentStep
  exact foldl_rel
    (R := fun a b' => a.total = b'.total ∧ a.refTotal = b'.refTotal)
    (f := fun s (p : Nat × (PyWord × Option Nat)) =>
      traceTokenStep useLemma targets det cap₁ label k b si.1
        (if st₁.trace_enabled then si.2.text else []) s p.1 p.2)
    (g := fun s (p : Nat × (PyWord × Option Nat)) =>
      traceTokenStep useLemma targets det cap₂ label k b si.1
        (if st₂.trace_enabled then si.2.text else []) s p.1 p.2)
    (fun s₁ s₂ p hr => by
      have h₁ := traceTokenStep_proj useLemma targets det cap₁ label k b si.1
        (if st₁.trace_enabled then si.2.text else []) s₁ p.1 p.2
      have h₂ := traceTokenStep_proj useLemma targets det cap₂ label k b si.1
        (if st₂.trace_enabled then si.2.text else []) s₂ p.1 p.2
      dsimp only
      rw [h₁.1, h₁.2, h₂.1, h₂.2, hr.1, hr.2]
      exact ⟨rfl, rfl⟩)
    _ st₁ st₂ h

theorem traceChunkStep_totals (annotate : List Char → PyDoc)
    (useLemma : Bool) (targets : List (List Char))
    (det : Option (List Char → List Char)) (cap₁ cap₂ : Nat)
    (label : List Char) (acc₁ acc₂ : TraceState × Nat)
    (h : acc₁.1.total = acc₂.1.total ∧ acc₁.1.refTotal = acc₂.1.refTotal ∧
      acc₁.2 = acc₂.2) (kc : Nat × List Char) :
    (traceChunkStep annotate useLemma targets det cap₁ label acc₁ kc).1.total
      = (traceChunkStep annotate useLemma targets det cap₂ label acc₂
        kc).1.total ∧
    (traceChunkStep annotate useLemma targets det cap₁ label acc₁
      kc).1.refTotal
      = (traceChunkStep annotate useLemma targets det cap₂ label acc₂
        kc).1.refTotal ∧
    (traceChunkStep annotate useLemma targets det cap₁ label acc₁ kc).2
      = (traceChunkStep annotate useLemma targets det cap₂ label acc₂
        kc).2 := by
  unfold traceChunkStep
  rcases h with ⟨h1, h2, h3⟩
  rw [h3]
  have := foldl_rel
    (R := fun a b' => a.total = b'.total ∧ a.refTotal = b'.refTotal)
    (f := traceSentStep useLemma targets det cap₁ label kc.1 acc₂.2)
    (g := traceSentStep useLemma targets det cap₂ label kc.1 acc₂.2)
    (fun s₁ s₂ si hr =>
      traceSentStep_totals useLemma targets det cap₁ cap₂ label kc.1 acc₂.2
        s₁ s₂ hr si)
    (enumFrom 1 (annotate kc.2).sentences) acc₁.1 acc₂.1 ⟨h1, h2⟩
  exact ⟨this.1, this.2, rfl⟩

/-- The returned counters of the trace path do not depend on the row
cap. -/
theorem trace_totals_cap_free (annotate : List Char → PyDoc)
    (useLemma : Bool) (targets : List (List Char))
    (det : Option (List Char → List Char)) (chunkChars : Nat)
    (label : List Char) (cap : Nat) (text : List Char) :
    (count_nouns_streaming_trace annotate useLemma targets det chunkChars
      label cap text).total
      = (count_nouns_streaming_trace annotate useLemma targets det chunkChars
        label 0 text).total ∧
    (count_nouns_streaming_trace annotate useLemma targets det chunkChars
      label cap text).refTotal
      = (count_nouns_streaming_trace annotate useLemma targets det chunkChars
        label 0 text).refTotal := by
  unfold count_nouns_streaming_trace
  by_cases htext : text = []
  · rw [if_pos htext, if_pos htext]
    exact ⟨rfl, rfl⟩
  · rw [if_neg htext, if_neg htext]
    have := foldl_rel
      (R := fun (a b' : TraceState × Nat) =>
        a.1.total = b'.1.total ∧ a.1.refTotal = b'.1.refTotal ∧ a.2 = b'.2)
      (f := traceChunkStep annotate useLemma targets det cap label)
      (g := traceChunkStep annotate useLemma targets det 0 label)
      (fun a₁ a₂ kc hr =>
        traceChunkStep_totals annotate useLemma targets det cap 0 label a₁ a₂
          hr kc)
      (enumFrom 1 (iter_char_chunks text chunkChars))
      (initTraceState, 0) (initTraceState, 0) ⟨rfl, rfl, rfl⟩
    exact ⟨this.1, this.2.1⟩

theorem range'_succ_right : ∀ (s n : Nat),
    List.range' s (n + 1) = List.range' s n ++ [s + n] := by
  intro s n
  induction n generalizing s with
  | zero => simp [List.range']
  | succ n ih =>
    rw [List.range'_succ, ih (s + 1), List.range'_succ]
    simp [List.cons_append]
    omega

/-- Invariant: `global_row` counts the written rows, and the written rows
carry the numbers `1, 2, …` in order. -/
def RowNumInv (st : TraceState) : Prop :=
  st.global_row = st.rows.length ∧
  st.rows.map TraceRow.global_row = List.range' 1 st.rows.length

theorem traceTokenStep_rownuminv (useLemma : Bool)
    (targets : List (List Char)) (det : Option (List Char → List Char))
    (cap : Nat) (label : List Char) (k b si : Nat) (stx : List Char)
    (st : TraceState) (h : RowNumInv st) (i : Nat)
    (wo : PyWord × Option Nat) :
    RowNumInv (traceTokenStep useLemma targets det cap label k b si stx st i
      wo) := by
  rcases wo with ⟨w, off⟩
  unfold traceTokenStep
  cases hu : w.upos with
  | none => exact h
  | some u =>
    by_cases ht : u ∈ targets
    · simp only [if_pos ht]
      have hwrite : ∀ st1 : TraceState,
          st1.rows = st.rows → st1.global_row = st.global_row →
          (st.trace_enabled = true →
            RowNumInv { st1 with
              rows := st.rows ++ [{
                label := label, chunk := k, sent_idx := si, token_idx := i,
                token_char_start_in_chunk := off,
                token_char_start_in_text := off.map (fun o => b + o),
                sentence := stx,
                token := w.text.getD [],
                lemma' := w.lemma'.getD [],
                upos := u,
                ref_tag := (match det with
                  | some d =>
                    if traceKeyOf useLemma w ≠ [] then d (traceKeyOf useLemma w)
                    else []
                  | none => []),
                global_row := st.global_row + 1 }],
              rows_written := st.rows_written + 1,
              global_row := st.global_row + 1,
              trace_enabled :=
                if cap ≠ 0 ∧ st.rows_written + 1 ≥ cap then false
                else true }) := by
        intro st1 h1 h2 _
        constructor
        · simp [h.1]
        · simp only [List.map_append, List.map_cons, List.map_nil,
            List.length_append, List.length_cons, List.length_nil]
          rw [h.2, range'_succ_right, h.1]
          simp [Nat.add_comm]
      cases det with
      | none =>
        by_cases hkey : traceKeyOf useLemma w ≠ []
        · by_cases he : st.trace_enabled
          · simp only [hkey, if_true, he]
            have := hwrite { st with total := st.total ++ [traceKeyOf useLemma w] }
              rfl rfl he
            simpa [hkey, he] using this
          · simp only [hkey, he]
            simpa [hkey, he] using h
        · by_cases he : st.trace_enabled
          · have := hwrite st rfl rfl he
            simpa [hkey, he] using this
          · simpa [hkey, he] using h
      | some d =>
        by_cases hkey : traceKeyOf useLemma w ≠ []
        · by_cases htag : d (traceKeyOf useLemma w) ≠ []
          · by_cases he : st.trace_enabled
            · have := hwrite
                { st with refTotal := st.refTotal ++ [d (traceKeyOf useLemma w)] }
                rfl rfl he
              simpa [hkey, htag, he] using this
            · simpa [hkey, htag, he] using h
          · by_cases he : st.trace_enabled
            · have := hwrite
                { st with total := st.total ++ [traceKeyOf useLemma w] }
                rfl rfl he
              simpa [hkey, htag, he] using this
            · simpa [hkey, htag, he] using h
        · by_cases he : st.trace_enabled
          · have := hwrite st rfl rfl he
            simpa [hkey, he] using this
          · simpa [hkey, he] using h
    · simp only [if_neg ht]
      exact h

/-- Invariant: `rows_written` counts the rows, the row count never
exceeds a positive cap, and tracing is still enabled only while strictly
below the cap. -/
def CapInv (cap : Nat) (st : TraceState) : Prop :=
  st.rows_written = st.rows.length ∧
  (cap ≠ 0 → st.rows.length ≤ cap ∧
    (st.trace_enabled = true → st.rows.length < cap))

theorem traceTokenStep_capinv (useLemma : Bool)
    (targets : List (List Char)) (det : Option (List Char → List Char))
    (cap : Nat) (label : List Char) (k b si : Nat) (stx : List Char)
    (st : TraceState) (h : CapInv cap st) (i : Nat)
    (wo : PyWord × Option Nat) :
    CapInv cap (traceTokenStep useLemma targets det cap label k b si stx st i
      wo) := by
  rcases wo with ⟨w, off⟩
  unfold traceTokenStep
  cases hu : w.upos with
  | none => exact h
  | some u =>
    by_cases ht : u ∈ targets
    · simp only [if_pos ht]
      have hwrite : ∀ st1 : TraceState,
          st1.rows = st.rows → st1.rows_written = st.rows_written →
          (st.trace_enabled = true →
            CapInv cap { st1 with
              rows := st.rows ++ [{
                label := label, chunk := k, sent_idx := si, token_idx := i,
                token_char_start_in_chunk := off,
                token_char_start_in_text := off.map (fun o => b + o),
                sentence := stx,
                token := w.text.getD [],
                lemma' := w.lemma'.getD [],
                upos := u,
                ref_tag := (match det with
                  | some d =>
                    if traceKeyOf useLemma w ≠ [] then d (traceKeyOf useLemma w)
                    else []
                  | none => []),
                global_row := st.global_row + 1 }],
              rows_written := st.rows_written + 1,
              global_row := st.global_row + 1,
              trace_enabled :=
                if cap ≠ 0 ∧ st.rows_written + 1 ≥ cap then false
                else true }) := by
        intro st1 h1 h2 he
        constructor
        · simp [h.1]
        · intro hcap
          have hlt := (h.2 hcap).2 he
          constructor
          · simp only [List.length_append, List.length_cons, List.length_nil]
            omega
          · intro hen
            by_cases hcond : cap ≠ 0 ∧ st.rows_written + 1 ≥ cap
            · rw [if_pos hcond] at hen
              exact absurd hen (by simp)
            · simp only [List.length_append, List.length_cons, List.length_nil]
              rw [h.1] at hcond
              push_neg at hcond
              have := hcond hcap
              omega
      cases det with
      | none =>
        by_cases hkey : traceKeyOf useLemma w ≠ []
        · by_cases he : st.trace_enabled
          · have := hwrite { st with total := st.total ++ [traceKeyOf useLemma w] }
              rfl rfl he
            simpa [hkey, he] using this
          · have hpres : CapInv cap
                { st with total := st.total ++ [traceKeyOf useLemma w] } :=
              ⟨h.1, fun hcap => ⟨(h.2 hcap).1, fun hen => (h.2 hcap).2 hen⟩⟩
            simpa [hkey, he] using hpres
        · by_cases he : st.trace_enabled
          · have := hwrite st rfl rfl he
            simpa [hkey, he] using this
          · simpa [hkey, he] using h
      | some d =>
        by_cases hkey : traceKeyOf useLemma w ≠ []
        · by_cases htag : d (traceKeyOf useLemma w) ≠ []
          · by_cases he : st.trace_enabled
            · have := hwrite
                { st with refTotal := st.refTotal ++ [d (traceKeyOf useLemma w)] }
                rfl rfl he
              simpa [hkey, htag, he] using this
            · have hpres : CapInv cap
                  { st with refTotal := st.refTotal ++ [d (traceKeyOf useLemma w)] } :=
                ⟨h.1, fun hcap => ⟨(h.2 hcap).1, fun hen => (h.2 hcap).2 hen⟩⟩
              simpa [hkey, htag, he] using hpres
          · by_cases he : st.trace_enabled
            · have := hwrite
                { st with total := st.total ++ [traceKeyOf useLemma w] }
                rfl rfl he
              simpa [hkey, htag, he] using this
            · have hpres : CapInv cap
                  { st with total := st.total ++ [traceKeyOf useLemma w] } :=
                ⟨h.1, fun hcap => ⟨(h.2 hcap).1, fun hen => (h.2 hcap).2 hen⟩⟩
              simpa [hkey, htag, he] using hpres
        · by_cases he : st.trace_enabled
          · have := hwrite st rfl rfl he
            simpa [hkey, he] using this
          · simpa [hkey, he] using h
    · simp only [if_neg ht]
      exact h

/-- Lift a per-token state invariant through the sentence, chunk and run
folds of the trace path. -/
theorem trace_run_inv (P : TraceState → Prop)
    (annotate : List Char → PyDoc) (useLemma : Bool)
    (targets : List (List Char)) (det : Option (List Char → List Char))
    (chunkChars : Nat) (label : List Char) (cap : Nat) (text : List Char)
    (hstep : ∀ (k b si : Nat) (stx : List Char) (st : TraceState) (i : Nat)
      (wo : PyWord × Option Nat), P st →
      P (traceTokenStep useLemma targets det cap label k b si stx st i wo))
    (hinit : P initTraceState) :
    P (count_nouns_streaming_trace annotate useLemma targets det chunkChars
      label cap text) := by
  unfold count_nouns_streaming_trace
  by_cases htext : text = []
  · rw [if_pos htext]
    exact hinit
  · rw [if_neg htext]
    have hchunk : ∀ (acc : TraceState × Nat) (kc : Nat × List Char),
        P acc.1 →
        P (traceChunkStep annotate useLemma targets det cap label acc kc).1 := by
      intro acc kc hp
      unfold traceChunkStep
      exact foldl_inv (P := P)
        (f := traceSentStep useLemma targets det cap label kc.1 acc.2)
        (fun st si hp' => by
          unfold traceSentStep
          exact foldl_inv (P := P)
            (f := fun s (p : Nat × (PyWord × Option Nat)) =>
              traceTokenStep useLemma targets det cap label kc.1 acc.2 si.1
                (if st.trace_enabled then si.2.text else []) s p.1 p.2)
            (fun s p hp'' => hstep kc.1 acc.2 si.1
              (if st.trace_enabled then si.2.text else []) s p.1 p.2 hp'')
            _ st hp')
        (enumFrom 1 (annotate kc.2).sentences) acc.1 hp
    exact foldl_inv
      (P := fun acc : TraceState × Nat => P acc.1)
      (f := traceChunkStep annotate useLemma targets det cap label)
      (fun acc kc hp => hchunk acc kc hp)
      (enumFrom 1 (iter_char_chunks text chunkChars)) (initTraceState, 0)
      hinit

/-- Three NOUN tokens with lemmas `a`, `b`, `c`. -/
def wordA : PyWord := ⟨some "NOUN".data, some "a".data, some "a".data, none⟩

def wordB : PyWord := ⟨some "NOUN".data, some "b".data, some "b".data, none⟩

def wordC : PyWord := ⟨some "NOUN".data, some "c".data, some "c".data, none⟩

/-- An annotator producing three target-tag hits for any chunk. -/
def ann3 : List Char → PyDoc := fun _ =>
  ⟨[⟨"S".data,
    [⟨none, none, none, some 0, [wordA]⟩,
     ⟨none, none, none, some 2, [wordB]⟩,
     ⟨none, none, none, some 4, [wordC]⟩], []⟩]⟩

/-- C3: the trace-path aggregator stops writing rows once a positive cap
is reached but keeps counting over all remaining tokens and chunks: the
returned NounCounter equals the uncapped counter; the `global_row` values
written are `1, 2, …` in order (1-based, strictly increasing, incremented
only for rows actually written); the number of data rows never exceeds a
positive cap; and concretely, with `trace_max_rows = 1` and input
producing 3 target-tag hits, all 3 are counted while exactly 1 data row is
written. -/
theorem trace_row_cap_vs_counting (annotate : List Char → PyDoc)
    (useLemma : Bool) (targets : List (List Char))
    (det : Option (List Char → List Char)) (chunkChars : Nat)
    (label : List Char) (cap : Nat) (text : List Char) :
    (toCounter (count_nouns_streaming_trace annotate useLemma targets det
        chunkChars label cap text).total
      = toCounter (count_nouns_streaming_trace annotate useLemma targets det
        chunkChars label 0 text).total) ∧
    ((count_nouns_streaming_trace annotate useLemma targets det chunkChars
        label cap text).rows.map TraceRow.global_row
      = List.range' 1 (count_nouns_streaming_trace annotate useLemma targets
        det chunkChars label cap text).rows.length) ∧
    ((count_nouns_streaming_trace annotate useLemma targets det chunkChars
        label cap text).rows.length
      ≤ if cap = 0 then
          (count_nouns_streaming_trace annotate useLemma targets det
            chunkChars label 0 text).rows.length
        else cap) ∧
    ((count_nouns_streaming_trace ann3 true ["NOUN".data] none 10 [] 1
        "abc".data).total.length = 3 ∧
      toCounter (count_nouns_streaming_trace ann3 true ["NOUN".data] none 10
        [] 1 "abc".data).total
        = toCounter (count_nouns_streaming_trace ann3 true ["NOUN".data] none
          10 [] 0 "abc".data).total ∧
      (count_nouns_streaming_trace ann3 true ["NOUN".data] none 10 [] 1
        "abc".data).rows.length = 1 ∧
      (count_nouns_streaming_trace ann3 true ["NOUN".data] none 10 [] 0
        "abc".data).rows.length = 3) := by
  refine ⟨?_, ?_, ?_, ?_, ?_, ?_, ?_⟩
  · exact congrArg toCounter
      (trace_totals_cap_free annotate useLemma targets det chunkChars label
        cap text).1
  · exact (trace_run_inv RowNumInv annotate useLemma targets det chunkChars
      label cap text
      (fun k b si stx st i wo hp =>
        traceTokenStep_rownuminv useLemma targets det cap label k b si stx st
          hp i wo)
      ⟨rfl, rfl⟩).2
  · by_cases hcap : cap = 0
    · subst hcap
      rw [if_pos rfl]
    · rw [if_neg hcap]
      have hfin := trace_run_inv (CapInv cap) annotate useLemma targets det
        chunkChars label cap text
        (fun k b si stx st i wo hp =>
          traceTokenStep_capinv useLemma targets det cap label k b si stx st
            hp i wo)
        ⟨rfl, fun hc =>
          ⟨by simp [initTraceState],
            fun _ => by simp [initTraceState]; omega⟩⟩
      exact (hfin.2 hcap).1
  · decide
  · decide
  · decide
  · decide

/-- The cumulative length of all chunks before the `k`-th (1-based). -/
def chunkPrefixLen (chunks : List (List Char)) (k : Nat) : Nat :=
  ((chunks.take (k - 1)).map List.length).sum

/-- A trace row's offset columns are consistent: the in-text offset is the
sum of all prior chunks' lengths plus the in-chunk offset, and both
columns are empty together. -/
def RowOffsetOk (chunks : List (List Char)) (row : TraceRow) : Prop :=
  (∀ o, row.token_char_start_in_chunk = some o →
    row.token_char_start_in_text = some (chunkPrefixLen chunks row.chunk + o)) ∧
  (row.token_char_start_in_chunk = none →
    row.token_char_start_in_text = none)

theorem traceTokenStep_offinv (chunks : List (List Char)) (useLemma : Bool)
    (targets : List (List Char)) (det : Option (List Char → List Char))
    (cap : Nat) (label : List Char) (k b si : Nat) (stx : List Char)
    (hb : b = chunkPrefixLen chunks k) (st : TraceState)
    (h : ∀ row ∈ st.rows, RowOffsetOk chunks row) (i : Nat)
    (wo : PyWord × Option Nat) :
    ∀ row ∈ (traceTokenStep useLemma targets det cap label k b si stx st i
      wo).rows, RowOffsetOk chunks row := by
  rcases wo with ⟨w, off⟩
  unfold traceTokenStep
  cases hu : w.upos with
  | none => exact h
  | some u =>
    by_cases ht : u ∈ targets
    · simp only [if_pos ht]
      have hnew : RowOffsetOk chunks {
          label := label, chunk := k, sent_idx := si, token_idx := i,
          token_char_start_in_chunk := off,
          token_char_start_in_text := off.map (fun o => b + o),
          sentence := stx,
          token := w.text.getD [],
          lemma' := w.lemma'.getD [],
          upos := u,
          ref_tag := (match det with
            | some d =>
              if traceKeyOf useLemma w ≠ [] then d (traceKeyOf useLemma w)
              else []
            | none => []),
          global_row := st.global_row + 1 } := by
        constructor
        · intro o ho
          simp only at ho
          subst ho
          simp [hb]
        · intro ho
          simp only at ho
          subst ho
          rfl
      have hwrite : ∀ st1 : TraceState, st1.rows = st.rows →
          ∀ row ∈ (st.rows ++ [{
            label := label, chunk := k, sent_idx := si, token_idx := i,
            token_char_start_in_chunk := off,
            token_char_start_in_text := off.map (fun o => b + o),
            sentence := stx,
            token := w.text.getD [],
            lemma' := w.lemma'.getD [],
            upos := u,
            ref_tag := (match det with
              | some d =>
                if traceKeyOf useLemma w ≠ [] then d (traceKeyOf useLemma w)
                else []
              | none => []),
            global_row := st.global_row + 1 }] : List TraceRow),
            RowOffsetOk chunks row := by
        intro st1 h1 row hrow
        rcases List.mem_append.mp hrow with hmem | hmem
        · exact h row hmem
        · have := List.mem_singleton.mp hmem
          subst this
          exact hnew
      cases det with
      | none =>
        by_cases hkey : traceKeyOf useLemma w ≠ []
        · by_cases he : st.trace_enabled
          · intro row hrow
            refine hwrite st rfl row ?_
            simpa [hkey, he] using hrow
          · intro row hrow
            refine h row ?_
            simpa [hkey, he] using hrow
        · by_cases he : st.trace_enabled
          · intro row hrow
            refine hwrite st rfl row ?_
            simpa [hkey, he] using hrow
          · intro row hrow
            refine h row ?_
            simpa [hkey, he] using hrow
      | some d =>
        by_cases hkey : traceKeyOf useLemma w ≠ []
        · by_cases htag : d (traceKeyOf useLemma w) ≠ []
          · by_cases he : st.trace_enabled
            · intro row hrow
              refine hwrite st rfl row ?_
              simpa [hkey, htag, he] using hrow
            · intro row hrow
              refine h row ?_
              simpa [hkey, htag, he] using hrow
          · by_cases he : st.trace_enabled
            · intro row hrow
              refine hwrite st rfl row ?_
              simpa [hkey, htag, he] using hrow
            · intro row hrow
              refine h row ?_
              simpa [hkey, htag, he] using hrow
        · by_cases he : st.trace_enabled
          · intro row hrow
            refine hwrite st rfl row ?_
            simpa [hkey, he] using hrow
          · intro row hrow
            refine h row ?_
            simpa [hkey, he] using hrow
    · simp only [if_neg ht]
      exact h

theorem traceSentStep_offinv (chunks : List (List Char)) (useLemma : Bool)
    (targets : List (List Char)) (det : Option (List Char → List Char))
    (cap : Nat) (label : List Char) (k b : Nat)
    (hb : b = chunkPrefixLen chunks k) (st : TraceState)
    (h : ∀ row ∈ st.rows, RowOffsetOk chunks row) (si : Nat × PySentence) :
    ∀ row ∈ (traceSentStep useLemma targets det cap label k b st si).rows,
      RowOffsetOk chunks row := by
  unfold traceSentStep
  exact foldl_inv (P := fun s => ∀ row ∈ s.rows, RowOffsetOk chunks row)
    (f := fun s (p : Nat × (PyWord × Option Nat)) =>
      traceTokenStep useLemma targets det cap label k b si.1
        (if st.trace_enabled then si.2.text else []) s p.1 p.2)
    (fun s p hp =>
      traceTokenStep_offinv chunks useLemma targets det cap label k b si.1
        (if st.trace_enabled then si.2.text else []) hb s hp p.1 p.2)
    _ st h

theorem trace_chunks_fold_offsets (annotate : List Char → PyDoc)
    (useLemma : Bool) (targets : List (List Char))
    (det : Option (List Char → List Char)) (cap : Nat) (label : List Char)
    (chunks : List (List Char)) :
    ∀ (suffix A : List (List Char)) (st : TraceState) (base : Nat),
      chunks = A ++ suffix →
      base = (A.map List.length).sum →
      (∀ row ∈ st.rows, RowOffsetOk chunks row) →
      ∀ row ∈ ((enumFrom (A.length + 1) suffix).foldl
        (traceChunkStep annotate useLemma targets det cap label)
        (st, base)).1.rows, RowOffsetOk chunks row := by
  intro suffix
  induction suffix with
  | nil =>
    intro A st base hsplit hbase hrows
    simpa [enumFrom] using hrows
  | cons ch rest ih =>
    intro A st base hsplit hbase hrows
    rw [enumFrom, List.foldl_cons]
    have hbase' : base = chunkPrefixLen chunks (A.length + 1) := by
      unfold chunkPrefixLen
      rw [hsplit]
      simp only [Nat.add_sub_cancel]
      rw [List.take_left]
      exact hbase
    have hst' : ∀ row ∈ (traceChunkStep annotate useLemma targets det cap
        label (st, base) (A.length + 1, ch)).1.rows,
        RowOffsetOk chunks row := by
      unfold traceChunkStep
      exact foldl_inv
        (P := fun s => ∀ row ∈ s.rows, RowOffsetOk chunks row)
        (f := traceSentStep useLemma targets det cap label (A.length + 1)
          base)
        (fun s si hp =>
          traceSentStep_offinv chunks useLemma targets det cap label
            (A.length + 1) base hbase' s hp si)
        (enumFrom 1 (annotate ch).sentences) st hrows
    have hsnd : (traceChunkStep annotate useLemma targets det cap label
        (st, base) (A.length + 1, ch)).2 = base + ch.length := rfl
    have happ := ih (A ++ [ch])
      (traceChunkStep annotate useLemma targets det cap label (st, base)
        (A.length + 1, ch)).1
      (base + ch.length)
      (by rw [hsplit, List.append_assoc]; rfl)
      (by simp [hbase])
      hst'
    have hpair : traceChunkStep annotate useLemma targets det cap label
        (st, base) (A.length + 1, ch)
        = ((traceChunkStep annotate useLemma targets det cap label (st, base)
            (A.length + 1, ch)).1, base + ch.length) := by
      rw [← hsnd]
    rw [hpair]
    have hidx : A.length + 1 + 1 = (A ++ [ch]).length + 1 := by simp
    rw [hidx]
    exact happ

/-- Every row written by a full trace run has consistent offset
columns. -/
theorem trace_offsets_all (annotate : List Char → PyDoc) (useLemma : Bool)
    (targets : List (List Char)) (det : Option (List Char → List Char))
    (chunkChars : Nat) (label : List Char) (cap : Nat) (text : List Char) :
    ∀ row ∈ (count_nouns_streaming_trace annotate useLemma targets det
      chunkChars label cap text).rows,
      RowOffsetOk (iter_char_chunks text chunkChars) row := by
  unfold count_nouns_streaming_trace
  by_cases htext : text = []
  · rw [if_pos htext]
    intro row hrow
    simp [initTraceState] at hrow
  · rw [if_neg htext]
    have h := trace_chunks_fold_offsets annotate useLemma targets det cap
      label (iter_char_chunks text chunkChars)
      (iter_char_chunks text chunkChars) [] initTraceState 0
      (by simp) (by simp)
      (by intro row hrow; simp [initTraceState] at hrow)
    simpa [enumFrom] using h

/-- An annotator for the two-chunk offset example: chunk `"bbbbb"` gets
one NOUN token at in-chunk offset 1, the other chunk gets none. -/
def annC4 : List Char → PyDoc := fun s =>
  if s = "bbbbb".data then
    ⟨[⟨"S2".data,
      [⟨none, none, none, some 1,
        [⟨some "NOUN".data, some "y".data, some "Y".data, none⟩]⟩], []⟩]⟩
  else ⟨[⟨"S1".data, [], []⟩]⟩

/-- An annotator whose token carries no start offset. -/
def annC4n : List Char → PyDoc := fun _ =>
  ⟨[⟨"S".data, [⟨none, none, none, none, [wordA]⟩], []⟩]⟩

/-- C4: every trace row written for a token whose annotator provides a
start offset has `token_char_start_in_text` equal to the sum of the
lengths of all chunks before the token's chunk plus the token's offset
within its own chunk; when the annotator provides no offset both offset
columns are empty.  Concretely: with two chunks of lengths 5 and 5, a
token at offset 1 in the second chunk is logged with
`token_char_start_in_text = 6`; with an offset-less annotator both columns
are empty and the token is still counted. -/
theorem trace_offset_correct (annotate : List Char → PyDoc) (useLemma : Bool)
    (targets : List (List Char)) (det : Option (List Char → List Char))
    (chunkChars : Nat) (label : List Char) (cap : Nat) (text : List Char)
    (row : TraceRow)
    (hrow : row ∈ (count_nouns_streaming_trace annotate useLemma targets det
      chunkChars label cap text).rows) :
    (∀ o, row.token_char_start_in_chunk = some o →
      row.token_char_start_in_text
        = some (chunkPrefixLen (iter_char_chunks text chunkChars) row.chunk
            + o)) ∧
    (row.token_char_start_in_chunk = none →
      row.token_char_start_in_text = none) ∧
    ((count_nouns_streaming_trace annC4 true ["NOUN".data] none 5 [] 0
        "aaaa bbbbb".data).rows.map
        (fun r => (r.chunk, r.token_char_start_in_chunk,
          r.token_char_start_in_text))
      = [(2, some 1, some 6)]) ∧
    ((count_nouns_streaming_trace annC4n true ["NOUN".data] none 10 [] 0
        "abc".data).total = ["a".data] ∧
      (count_nouns_streaming_trace annC4n true ["NOUN".data] none 10 [] 0
        "abc".data).rows.map
        (fun r => (r.token_char_start_in_chunk, r.token_char_start_in_text))
        = [(none, none)]) := by
  have h := trace_offsets_all annotate useLemma targets det chunkChars label
    cap text row hrow
  refine ⟨h.1, h.2, by decide, by decide, by decide⟩

theorem trace_offset_correct_witness :
    ((count_nouns_streaming_trace annC4 true ["NOUN".data] none 5 [] 0
      "aaaa bbbbb".data).rows.headI).token_char_start_in_text = some 6 := by
  have h := trace_offset_correct annC4 true ["NOUN".data] none 5 [] 0
    "aaaa bbbbb".data
    ((count_nouns_streaming_trace annC4 true ["NOUN".data] none 5 [] 0
      "aaaa bbbbb".data).rows.headI)
    (by decide)
  have h1 := h.1 1 (by decide)
  rw [h1]
  decide

theorem insertKeyDesc_perm (k : List Char) (l : List (List Char)) :
    List.Perm (insertKeyDesc k l) (k :: l) := by
  induction l with
  | nil => exact List.Perm.refl _
  | cons x xs ih =>
    unfold insertKeyDesc
    by_cases hlen : k.length < x.length
    · rw [if_pos hlen]
      exact (ih.cons x).trans (List.Perm.swap k x xs)
    · rw [if_neg hlen]

theorem sortKeysDesc_perm (ks : List (List Char)) :
    List.Perm (sortKeysDesc ks) ks := by
  induction ks with
  | nil => exact List.Perm.refl _
  | cons k ks ih =>
    unfold sortKeysDesc
    rw [List.foldr_cons]
    exact (insertKeyDesc_perm k _).trans (ih.cons k)

theorem mem_sortKeysDesc {k : List Char} {ks : List (List Char)} :
    k ∈ sortKeysDesc ks ↔ k ∈ ks :=
  (sortKeysDesc_perm ks).mem_iff

theorem insertKeyDesc_pairwise {k : List Char} {l : List (List Char)}
    (h : List.Pairwise (fun a b => b.length ≤ a.length) l) :
    List.Pairwise (fun a b => b.length ≤ a.length) (insertKeyDesc k l) := by
  induction l with
  | nil => simp [insertKeyDesc]
  | cons x xs ih =>
    rcases List.pairwise_cons.mp h with ⟨hx, hxs⟩
    unfold insertKeyDesc
    by_cases hlen : k.length < x.length
    · rw [if_pos hlen]
      rw [List.pairwise_cons]
      constructor
      · intro b hb
        have hb' : b ∈ k :: xs := (insertKeyDesc_perm k xs).mem_iff.mp hb
        rcases List.mem_cons.mp hb' with hb' | hb'
        · subst hb'
          omega
        · exact hx b hb'
      · exact ih hxs
    · rw [if_neg hlen]
      rw [List.pairwise_cons]
      constructor
      · intro b hb
        rcases List.mem_cons.mp hb with hb' | hb'
        · subst hb'
          omega
        · have := hx b hb'
          omega
      · exact h

theorem sortKeysDesc_pairwise (ks : List (List Char)) :
    List.Pairwise (fun a b => b.length ≤ a.length) (sortKeysDesc ks) := by
  induction ks with
  | nil => simp [sortKeysDesc]
  | cons k ks ih =>
    unfold sortKeysDesc
    rw [List.foldr_cons]
    exact insertKeyDesc_pairwise ih

theorem find?_sorted_longest {keys : List (List Char)}
    (hsort : List.Pairwise (fun a b => b.length ≤ a.length) keys)
    {p : List Char → Bool} {k : List Char} (hfind : keys.find? p = some k) :
    ∀ k' ∈ keys, p k' = true → k'.length ≤ k.length := by
  induction keys with
  | nil => simp at hfind
  | cons x xs ih =>
    rcases List.pairwise_cons.mp hsort with ⟨hx, hxs⟩
    by_cases hp : p x
    · rw [List.find?_cons_of_pos _ hp] at hfind
      cases hfind
      intro k' hk' _
      rcases List.mem_cons.mp hk' with h | h
      · subst h
        exact le_refl _
      · exact hx k' h
    · rw [List.find?_cons_of_neg _ hp] at hfind
      intro k' hk' hpk'
      rcases List.mem_cons.mp hk' with h | h
      · subst h
        exact absurd hpk' (by simp [hp])
      · exact ih hxs hfind k' h hpk'

theorem headIsWord_append_left {a b : List Char} (ha : a ≠ []) :
    headIsWord (a ++ b) = headIsWord a := by
  cases a with
  | nil => exact absurd rfl ha
  | cons c t => rfl

theorem headIsWord_dropWhile (l : List Char) :
    headIsWord (l.dropWhile isWordChar) = false := by
  induction l with
  | nil => rfl
  | cons c t ih =>
    by_cases hc : isWordChar c
    · rw [List.dropWhile_cons, if_pos hc]
      exact ih
    · rw [List.dropWhile_cons, if_neg hc]
      simpa [headIsWord] using hc

theorem prefix_takeWhile {p : Char → Bool} :
    ∀ {k l : List Char}, (∀ c ∈ k, p c = true) → k <+: l →
      k <+: l.takeWhile p := by
  intro k
  induction k with
  | nil => intro l _ _; exact List.nil_prefix
  | cons a k' ih =>
    intro l hk hpre
    rcases hpre with ⟨t, ht⟩
    subst ht
    rw [List.cons_append, List.takeWhile_cons,
      if_pos (hk a (List.mem_cons_self a k'))]
    have h' := ih (fun c hc => hk c (List.mem_cons_of_mem a hc))
      (⟨t, rfl⟩ : k' <+: k' ++ t)
    rcases h' with ⟨t', ht'⟩
    exact ⟨t', by rw [← ht', List.cons_append]⟩

/-- All map keys are non-empty and made of word characters only (the
shape produced by a word-to-word lexicon table). -/
def AllWordKeys (m : List (List Char × List Char)) : Prop :=
  ∀ k ∈ m.map Prod.fst, k ≠ [] ∧ ∀ c ∈ k, isWordChar c = true

theorem lookupD_of_not_mem {m : List (List Char × List Char)}
    {k dflt : List Char} (h : k ∉ m.map Prod.fst) : lookupD m k dflt = dflt := by
  unfold lookupD
  have hfind : m.find? (fun p => p.1 == k) = none := by
    rw [List.find?_eq_none]
    intro p hp hbeq
    have : p.1 = k := by simpa using hbeq
    exact h (List.mem_map.mpr ⟨p, hp, this⟩)
  rw [hfind]

/-- No alternative can match mid-word (`prevWord = true`) when every key
starts with a word character. -/
theorem find?_keyMatches_midword {keys : List (List Char)}
    (hkeys : ∀ k ∈ keys, k ≠ [] ∧ ∀ c ∈ k, isWordChar c = true)
    (rest : List Char) :
    keys.find? (keyMatchesAt true rest) = none := by
  rw [List.find?_eq_none]
  intro k hk
  rcases hkeys k hk with ⟨hne, hw⟩
  cases k with
  | nil => exact absurd rfl hne
  | cons c cs =>
    have hc : isWordChar c = true := hw c (List.mem_cons_self c cs)
    simp [keyMatchesAt, hc]

/-- No alternative matches at a non-word character when every key starts
with a word character. -/
theorem find?_keyMatches_nonword {keys : List (List Char)}
    (hkeys : ∀ k ∈ keys, k ≠ [] ∧ ∀ c ∈ k, isWordChar c = true)
    {pw : Bool} {c : Char} (hc : isWordChar c = false) (rest : List Char) :
    keys.find? (keyMatchesAt pw (c :: rest)) = none := by
  rw [List.find?_eq_none]
  intro k hk
  rcases hkeys k hk with ⟨hne, hw⟩
  cases k with
  | nil => exact absurd rfl hne
  | cons d ds =>
    have hd : isWordChar d = true := hw d (List.mem_cons_self d ds)
    have hdc : (d == c) = false := by
      rw [beq_eq_false_iff_ne]
      intro he
      subst he
      rw [hd] at hc
      cases hc
    simp [keyMatchesAt, List.isPrefixOf, hdc]

/-- No alternative matches at the end of the text when every key is
non-empty. -/
theorem find?_keyMatches_nil {keys : List (List Char)}
    (hkeys : ∀ k ∈ keys, k ≠ [] ∧ ∀ c ∈ k, isWordChar c = true)
    (pw : Bool) : keys.find? (keyMatchesAt pw []) = none := by
  rw [List.find?_eq_none]
  intro k hk
  rcases hkeys k hk with ⟨hne, _⟩
  cases k with
  | nil => exact absurd rfl hne
  | cons d ds => simp [keyMatchesAt, List.isPrefixOf]

/-- At the start of a maximal word run, an all-word-character alternative
matches exactly when it equals the whole run: `\b` before is satisfied,
and `\b` after forces the key to stop exactly where the run stops. -/
theorem keyMatches_iff_run {k : List Char}
    (hk : k ≠ [] ∧ ∀ ch ∈ k, isWordChar ch = true)
    {c : Char} {rest' : List Char} (hc : isWordChar c = true) :
    keyMatchesAt false (c :: rest') k = true
      ↔ k = (c :: rest').takeWhile isWordChar := by
  have hsplit := List.takeWhile_append_dropWhile (p := isWordChar)
    (l := c :: rest')
  have hallw : ∀ ch ∈ (c :: rest').takeWhile isWordChar, isWordChar ch = true :=
    fun ch hch => List.mem_takeWhile_imp hch
  have hu : headIsWord ((c :: rest').dropWhile isWordChar) = false :=
    headIsWord_dropWhile _
  constructor
  · intro hmatch
    rcases hk with ⟨hne, hw⟩
    cases k with
    | nil => exact absurd rfl hne
    | cons d ds =>
      simp only [keyMatchesAt, Bool.and_eq_true, bne_iff_ne, ne_eq] at hmatch
      rcases hmatch with ⟨⟨hpre, _⟩, hba⟩
      have hprefix : (d :: ds) <+: (c :: rest') :=
        List.isPrefixOf_iff_prefix.mp hpre
      have hpw : (d :: ds) <+: (c :: rest').takeWhile isWordChar :=
        prefix_takeWhile hw hprefix
      have hlenle : (d :: ds).length
          ≤ ((c :: rest').takeWhile isWordChar).length :=
        hpw.length_le
      by_cases hlt : (d :: ds).length
          < ((c :: rest').takeWhile isWordChar).length
      · exfalso
        have hdrop : (c :: rest').drop (d :: ds).length
            = ((c :: rest').takeWhile isWordChar).drop (d :: ds).length
              ++ (c :: rest').dropWhile isWordChar := by
          conv_lhs => rw [← hsplit]
          rw [List.drop_append_of_le_length (by omega)]
        have hdnil : ((c :: rest').takeWhile isWordChar).drop
            (d :: ds).length ≠ [] := by
          intro hnil
          have := congrArg List.length hnil
          simp only [List.length_drop, List.length_nil] at this
          omega
        cases hdd : ((c :: rest').takeWhile isWordChar).drop
            (d :: ds).length with
        | nil => exact hdnil hdd
        | cons e es =>
          have he : e ∈ (c :: rest').takeWhile isWordChar :=
            List.drop_subset _ _ (by rw [hdd]; exact List.mem_cons_self e es)
          have hew : isWordChar e = true := hallw e he
          have hlast : isWordChar ((d :: ds).getLast
              (List.cons_ne_nil d ds)) = true :=
            hw _ (List.getLast_mem _)
          rw [hdrop, hdd] at hba
          rw [headIsWord_append_left (List.cons_ne_nil e es)] at hba
          simp only [headIsWord] at hba
          rw [hlast, hew] at hba
          exact hba rfl
      · exact hpw.eq_of_length (by omega)
  · intro hkw
    subst hkw
    have hwcons : (c :: rest').takeWhile isWordChar
        = c :: rest'.takeWhile isWordChar := by
      rw [List.takeWhile_cons, if_pos hc]
    rw [hwcons]
    simp only [keyMatchesAt, Bool.and_eq_true, bne_iff_ne, ne_eq]
    refine ⟨⟨?_, ?_⟩, ?_⟩
    · rw [List.isPrefixOf_iff_prefix, ← hwcons]
      exact List.takeWhile_prefix _
    · rw [hc]
      simp
    · have hlast : isWordChar ((c :: rest'.takeWhile isWordChar).getLast
          (List.cons_ne_nil _ _)) = true := by
        apply hallw
        rw [hwcons]
        exact List.getLast_mem _
      have hdropw : (c :: rest').drop
          (c :: rest'.takeWhile isWordChar).length
          = (c :: rest').dropWhile isWordChar := by
        conv_lhs => rw [← hsplit, hwcons]
        exact List.drop_left _ _
      rw [hlast, hdropw, hu]
      simp

theorem lexSubGo_fuel_stable {keys : List (List Char)}
    {m : List (List Char × List Char)} :
    ∀ (f₁ f₂ : Nat) (pw : Bool) (text : List Char),
      text.length + 1 ≤ f₁ → text.length + 1 ≤ f₂ →
      lexSubGo keys m f₁ pw text = lexSubGo keys m f₂ pw text := by
  intro f₁
  induction f₁ with
  | zero => intro f₂ pw text h1 h2; omega
  | succ f₁ ih =>
    intro f₂ pw text h1 h2
    cases f₂ with
    | zero => omega
    | succ f₂ =>
      cases text with
      | nil => rfl
      | cons c rest =>
        simp only [List.length_cons] at h1 h2
        simp only [lexSubGo]
        cases hfind : keys.find? (keyMatchesAt pw (c :: rest)) with
        | none =>
          simp only [hfind]
          rw [ih f₂ (isWordChar c) rest (by omega) (by omega)]
        | some k =>
          cases k with
          | nil =>
            simp only [hfind]
            rw [ih f₂ (isWordChar c) rest (by omega) (by omega)]
          | cons k0 ks =>
            simp only [hfind]
            rw [ih f₂ _ ((c :: rest).drop (k0 :: ks).length)
              (by simp only [List.length_drop, List.length_cons]; omega)
              (by simp only [List.length_drop, List.length_cons]; omega)]

theorem wordwiseGo_fuel_stable {m : List (List Char × List Char)} :
    ∀ (f₁ f₂ : Nat) (text : List Char),
      text.length + 1 ≤ f₁ → text.length + 1 ≤ f₂ →
      wordwiseGo m f₁ text = wordwiseGo m f₂ text := by
  intro f₁
  induction f₁ with
  | zero => intro f₂ text h1 h2; omega
  | succ f₁ ih =>
    intro f₂ text h1 h2
    cases f₂ with
    | zero => omega
    | succ f₂ =>
      cases text with
      | nil => rfl
      | cons c rest =>
        simp only [List.length_cons] at h1 h2
        simp only [wordwiseGo]
        by_cases hc : isWordChar c
        · rw [if_pos hc, if_pos hc]
          rw [ih f₂ (rest.dropWhile isWordChar)
            (by
              have := (List.dropWhile_sublist (l := rest) isWordChar).length_le
              omega)
            (by
              have := (List.dropWhile_sublist (l := rest) isWordChar).length_le
              omega)]
        · rw [if_neg hc, if_neg hc]
          rw [ih f₂ rest (by omega) (by omega)]

theorem lexSubGo_true_eq_false {keys : List (List Char)}
    {m : List (List Char × List Char)}
    (hkeys : ∀ k ∈ keys, k ≠ [] ∧ ∀ c ∈ k, isWordChar c = true)
    {u : List Char} (hu : headIsWord u = false) (fuel : Nat) :
    lexSubGo keys m fuel true u = lexSubGo keys m fuel false u := by
  cases fuel with
  | zero => rfl
  | succ f =>
    cases u with
    | nil =>
      simp only [lexSubGo]
      rw [find?_keyMatches_nil hkeys true, find?_keyMatches_nil hkeys false]
    | cons d u' =>
      have hd : isWordChar d = false := by simpa [headIsWord] using hu
      simp only [lexSubGo]
      rw [find?_keyMatches_nonword hkeys hd u',
        find?_keyMatches_nonword hkeys hd u']

theorem lexSubGo_copy_words {keys : List (List Char)}
    {m : List (List Char × List Char)}
    (hkeys : ∀ k ∈ keys, k ≠ [] ∧ ∀ c ∈ k, isWordChar c = true) :
    ∀ (w' : List Char), (∀ ch ∈ w', isWordChar ch = true) →
      ∀ (u : List Char) (fuel : Nat), (w' ++ u).length + 1 ≤ fuel →
      lexSubGo keys m fuel true (w' ++ u)
        = w' ++ lexSubGo keys m (u.length + 1) true u := by
  intro w'
  induction w' with
  | nil =>
    intro _ u fuel hf
    simp only [List.nil_append] at hf ⊢
    exact lexSubGo_fuel_stable fuel (u.length + 1) true u hf (le_refl _)
  | cons ch w'' ih =>
    intro hw u fuel hf
    have hch : isWordChar ch = true := hw ch (List.mem_cons_self ch w'')
    cases fuel with
    | zero => simp only [List.length_append, List.length_cons] at hf; omega
    | succ f =>
      rw [List.cons_append]
      simp only [lexSubGo]
      rw [find?_keyMatches_midword hkeys]
      simp only
      rw [hch, ih (fun c hc => hw c (List.mem_cons_of_mem ch hc)) u f
        (by
          simp only [List.length_append, List.length_cons] at hf ⊢
          omega)]
      rfl

theorem wordwiseApply_nil :
    ∀ (n : Nat) (text : List Char), text.length ≤ n →
      wordwiseApply [] text = text := by
  intro n
  induction n with
  | zero =>
    intro text hlen
    have htext : text = [] := List.length_eq_zero.mp (by omega)
    subst htext
    rfl
  | succ n ih =>
    intro text hlen
    cases text with
    | nil => rfl
    | cons c rest =>
      simp only [List.length_cons] at hlen
      unfold wordwiseApply
      simp only [List.length_cons, wordwiseGo]
      by_cases hc : isWordChar c
      · rw [if_pos hc]
        rw [lookupD_of_not_mem (by simp)]
        have hstab : wordwiseGo ([] : List (List Char × List Char))
            (rest.length + 1) (rest.dropWhile isWordChar)
            = wordwiseApply [] (rest.dropWhile isWordChar) := by
          unfold wordwiseApply
          exact wordwiseGo_fuel_stable _ _ _
            (by
              have := (List.dropWhile_sublist (l := rest) isWordChar).length_le
              omega)
            (le_refl _)
        rw [hstab, ih (rest.dropWhile isWordChar)
          (by
            have := (List.dropWhile_sublist (l := rest) isWordChar).length_le
            omega)]
        rw [List.takeWhile_cons, if_pos hc, List.cons_append]
        congr 1
        exact List.takeWhile_append_dropWhile isWordChar rest
      · rw [if_neg hc]
        have hstab : wordwiseGo ([] : List (List Char × List Char))
            (rest.length + 1) rest = wordwiseApply [] rest := rfl
        rw [hstab, ih rest (by omega)]

/-- The regex scan of `apply_lexicon_map` agrees with word-level
application when every key is a non-empty run of word characters. -/
theorem lexSubGo_eq_wordwise {m : List (List Char × List Char)}
    (hm : AllWordKeys m) :
    ∀ (n : Nat) (text : List Char), text.length ≤ n →
      lexSubGo (sortKeysDesc (m.map Prod.fst)) m (text.length + 1) false text
        = wordwiseApply m text := by
  have hkeys : ∀ k ∈ sortKeysDesc (m.map Prod.fst),
      k ≠ [] ∧ ∀ c ∈ k, isWordChar c = true :=
    fun k hk => hm k (mem_sortKeysDesc.mp hk)
  intro n
  induction n with
  | zero =>
    intro text hlen
    have htext : text = [] := List.length_eq_zero.mp (by omega)
    subst htext
    simp only [lexSubGo, List.length_nil]
    rw [find?_keyMatches_nil hkeys false]
    rfl
  | succ n ih =>
    intro text hlen
    cases text with
    | nil =>
      simp only [lexSubGo, List.length_nil]
      rw [find?_keyMatches_nil hkeys false]
      rfl
    | cons c rest' =>
      simp only [List.length_cons] at hlen
      by_cases hc : isWordChar c
      · -- the position starts a maximal word run
        have hwcons : (c :: rest').takeWhile isWordChar
            = c :: rest'.takeWhile isWordChar := by
          rw [List.takeWhile_cons, if_pos hc]
        have hwne : (c :: rest').takeWhile isWordChar ≠ [] := by
          rw [hwcons]
          exact List.cons_ne_nil _ _
        have hallw : ∀ ch ∈ (c :: rest').takeWhile isWordChar,
            isWordChar ch = true :=
          fun ch hch => List.mem_takeWhile_imp hch
        have hdropw : (c :: rest').dropWhile isWordChar
            = rest'.dropWhile isWordChar := by
          rw [List.dropWhile_cons, if_pos hc]
        have hulen : (rest'.dropWhile isWordChar).length ≤ rest'.length :=
          (List.dropWhile_sublist (l := rest') isWordChar).length_le
        have hdrop_eq : (c :: rest').drop
            ((c :: rest').takeWhile isWordChar).length
            = rest'.dropWhile isWordChar := by
          have h1 : (c :: rest').takeWhile isWordChar
              ++ (c :: rest').dropWhile isWordChar = c :: rest' :=
            List.takeWhile_append_dropWhile isWordChar (c :: rest')
          calc (c :: rest').drop ((c :: rest').takeWhile isWordChar).length
              = ((c :: rest').takeWhile isWordChar
                  ++ (c :: rest').dropWhile isWordChar).drop
                  ((c :: rest').takeWhile isWordChar).length := by rw [h1]
            _ = (c :: rest').dropWhile isWordChar := List.drop_left _ _
            _ = rest'.dropWhile isWordChar := hdropw
        have hwordwise : wordwiseApply m (c :: rest')
            = lookupD m ((c :: rest').takeWhile isWordChar)
                ((c :: rest').takeWhile isWordChar)
              ++ wordwiseApply m (rest'.dropWhile isWordChar) := by
          unfold wordwiseApply
          simp only [List.length_cons, wordwiseGo]
          rw [if_pos hc]
          congr 1
          exact wordwiseGo_fuel_stable _ _ _ (by omega) (le_refl _)
        by_cases hwmem : (c :: rest').takeWhile isWordChar ∈ m.map Prod.fst
        · -- the whole run is a key: the scan replaces it
          have hpred : keyMatchesAt false (c :: rest')
              ((c :: rest').takeWhile isWordChar) = true :=
            (keyMatches_iff_run ⟨hwne, hallw⟩ hc).mpr rfl
          have hsome : ((sortKeysDesc (m.map Prod.fst)).find?
              (keyMatchesAt false (c :: rest'))).isSome := by
            rw [List.find?_isSome]
            exact ⟨_, mem_sortKeysDesc.mpr hwmem, hpred⟩
          rcases Option.isSome_iff_exists.mp hsome with ⟨k, hfind⟩
          have hkmem := List.mem_of_find?_eq_some hfind
          have hkpred := List.find?_some hfind
          have hkw : k = (c :: rest').takeWhile isWordChar :=
            (keyMatches_iff_run (hkeys k hkmem) hc).mp hkpred
          subst hkw
          rw [hwcons] at hfind
          have hlast : isWordChar ((c :: rest'.takeWhile isWordChar).getLast
              (List.cons_ne_nil _ _)) = true := by
            apply hallw
            rw [hwcons]
            exact List.getLast_mem _
          simp only [List.length_cons, lexSubGo]
          rw [hfind]
          simp only
          rw [hlast]
          have hdrop_eq' : (c :: rest').drop
              ((rest'.takeWhile isWordChar).length + 1)
              = rest'.dropWhile isWordChar := by
            have := hdrop_eq
            rw [hwcons] at this
            simpa using this
          rw [hdrop_eq']
          rw [lexSubGo_fuel_stable (rest'.length + 1)
            ((rest'.dropWhile isWordChar).length + 1) true
            (rest'.dropWhile isWordChar) (by omega) (le_refl _)]
          rw [lexSubGo_true_eq_false hkeys (headIsWord_dropWhile rest')]
          rw [ih _ (by omega)]
          rw [hwordwise, hwcons]
        · -- the run is not a key: the scan copies it unchanged
          have hfind : (sortKeysDesc (m.map Prod.fst)).find?
              (keyMatchesAt false (c :: rest')) = none := by
            rw [List.find?_eq_none]
            intro k hkmem hkpred
            have hkw : k = (c :: rest').takeWhile isWordChar :=
              (keyMatches_iff_run (hkeys k hkmem) hc).mp hkpred
            subst hkw
            exact hwmem (mem_sortKeysDesc.mp hkmem)
          simp only [List.length_cons, lexSubGo]
          rw [hfind]
          simp only
          rw [hc]
          have hsplit' : rest' = rest'.takeWhile isWordChar
              ++ rest'.dropWhile isWordChar :=
            (List.takeWhile_append_dropWhile isWordChar rest').symm
          have hcopy : lexSubGo (sortKeysDesc (m.map Prod.fst)) m
              (rest'.length + 1) true rest'
              = rest'.takeWhile isWordChar
                ++ lexSubGo (sortKeysDesc (m.map Prod.fst)) m
                  ((rest'.dropWhile isWordChar).length + 1) true
                  (rest'.dropWhile isWordChar) := by
            conv_lhs => rw [hsplit']
            exact lexSubGo_copy_words hkeys _
              (fun ch hch => List.mem_takeWhile_imp hch) _
              ((rest'.takeWhile isWordChar
                ++ rest'.dropWhile isWordChar).length + 1) (le_refl _)
          rw [hcopy]
          rw [lexSubGo_true_eq_false hkeys (headIsWord_dropWhile rest')]
          rw [ih _ (by omega)]
          rw [hwordwise, lookupD_of_not_mem hwmem, hwcons, List.cons_append]
      · -- a non-word character is copied
        have hc' : isWordChar c = false := by simpa using hc
        simp only [List.length_cons, lexSubGo]
        rw [find?_keyMatches_nonword hkeys hc' rest']
        simp only
        rw [hc']
        rw [ih rest' (by omega)]
        unfold wordwiseApply
        simp only [List.length_cons, wordwiseGo]
        rw [if_neg hc]

/-- C7: `apply_lexicon_map` returns the input unchanged on an empty map
or empty text; on `{"ipsus" ↦ "ipse"}` and `"ipsus ipsorum"` it yields
`"ipse ipsorum"` (the `ipsus` inside `ipsorum` is untouched); for any map
whose keys are non-empty all-word-character strings it acts word-by-word —
replacing exactly the maximal word runs that are keys and leaving every
other word and character untouched, so no key ever replaces a substring
inside a larger word; and at any scan position the matched alternative is
a matching key of maximal length (longest key wins). -/
theorem apply_lexicon_map_correct (m : List (List Char × List Char))
    (text : List Char) :
    (apply_lexicon_map text [] = text) ∧
    (apply_lexicon_map [] m = []) ∧
    (apply_lexicon_map "ipsus ipsorum".data [("ipsus".data, "ipse".data)]
      = "ipse ipsorum".data) ∧
    (AllWordKeys m → apply_lexicon_map text m = wordwiseApply m text) ∧
    (∀ (pw : Bool) (rest k : List Char),
      (sortKeysDesc (m.map Prod.fst)).find? (keyMatchesAt pw rest) = some k →
      k ∈ m.map Prod.fst ∧ keyMatchesAt pw rest k = true ∧
      ∀ k' ∈ m.map Prod.fst, keyMatchesAt pw rest k' = true →
        k'.length ≤ k.length) := by
  refine ⟨?_, ?_, ?_, ?_, ?_⟩
  · simp [apply_lexicon_map]
  · simp [apply_lexicon_map]
  · decide
  · intro hall
    unfold apply_lexicon_map
    by_cases htext : text = []
    · rw [if_pos (Or.inl htext)]
      subst htext
      rfl
    · by_cases hmnil : m = []
      · rw [if_pos (Or.inr hmnil)]
        subst hmnil
        exact (wordwiseApply_nil text.length text (le_refl _)).symm
      · rw [if_neg (by
          intro h
          rcases h with h | h
          · exact htext h
          · exact hmnil h)]
        exact lexSubGo_eq_wordwise hall text.length text (le_refl _)
  · intro pw rest k hfind
    refine ⟨mem_sortKeysDesc.mp (List.mem_of_find?_eq_some hfind),
      List.find?_some hfind, ?_⟩
    intro k' hk' hp'
    exact find?_sorted_longest (sortKeysDesc_pairwise _) hfind k'
      (mem_sortKeysDesc.mpr hk') hp'

theorem apply_lexicon_map_correct_witness :
    apply_lexicon_map "ipsus ipsorum".data [("ipsus".data, "ipse".data)]
      = wordwiseApply [("ipsus".data, "ipse".data)] "ipsus ipsorum".data :=
  (apply_lexicon_map_correct [("ipsus".data, "ipse".data)]
    "ipsus ipsorum".data).2.2.2.1
    (by
      intro k hk
      simp only [List.map_cons, List.map_nil, List.mem_singleton] at hk
      subst hk
      exact ⟨by decide, by decide⟩)


end NlpoToolkit
